import Mathlib

/-!
# Verification of the VTT toolkit's cue model and timestamp engine

Shallow embedding of `vtt_toolkit.py`.  Python strings are modelled as
`List Char` (named `Str` below); every function is translated from the
source, statement by statement.  Python exceptions that the source
catches locally are modelled with `Option`; exceptions that would
propagate out of a routine are modelled with `Except Unit`.

One part of the source is deliberately left abstract: the pure-numeric
timestamp dialect computes `int(float(ts) * 1000)` with IEEE-754
binary64 arithmetic.  Binary64 parsing and rounding has no faithful
image in this Nat/Int embedding, so that branch is a parameter
(`pureSec`) of the parser; every theorem below either holds for all
instantiations of the parameter or concerns inputs that never reach
that branch (the branch is guarded by a digits-only regex, so inputs
containing `:` or letters never consult it).
-/

namespace VTT

/-- Python strings, as lists of characters. -/
abbrev Str := List Char

end VTT

deriving instance DecidableEq for Except

namespace VTT

/-- Python's `\s` / `str.strip()` whitespace, restricted to ASCII
(the toolkit only ever feeds it ASCII whitespace; Unicode spaces are
out of scope of this embedding). -/
def isSpace (c : Char) : Bool :=
  c = ' ' || c = '\t' || c = '\n' || c = '\r' || c = '\x0b' || c = '\x0c'

/-- `s.lstrip()`. -/
def lstrip (s : Str) : Str := s.dropWhile isSpace

/-- `s.rstrip()`. -/
def rstrip (s : Str) : Str := (s.reverse.dropWhile isSpace).reverse

/-- `s.strip()`. -/
def strip (s : Str) : Str := lstrip (rstrip s)

/-- `s.rstrip("\n")`. -/
def rstripNl (s : Str) : Str := (s.reverse.dropWhile (· = '\n')).reverse

/-- ASCII decimal digit (Python's `\d`, ASCII fragment). -/
def isDigit (c : Char) : Bool := '0' ≤ c && c ≤ '9'

/-- ASCII letter, for the `[^a-zA-Z]` class of `PARTNUM_RE`. -/
def isAsciiAlpha (c : Char) : Bool :=
  ('a' ≤ c && c ≤ 'z') || ('A' ≤ c && c ≤ 'Z')

/-- `line.strip() == ""`. -/
def isBlank (l : Str) : Bool := strip l = []

/-- Numeric value of a list of ASCII digits, most significant first. -/
def digitsVal (ds : Str) : Nat :=
  ds.foldl (fun a c => 10 * a + (c.toNat - 48)) 0

/-- The ASCII digit character of `d < 10`. -/
def digitChar (d : Nat) : Char :=
  match d with
  | 0 => '0' | 1 => '1' | 2 => '2' | 3 => '3' | 4 => '4'
  | 5 => '5' | 6 => '6' | 7 => '7' | 8 => '8' | _ => '9'

/-- Decimal digits, fuelled for structural recursion (the fuel is an
upper bound on the value, enough for every digit). -/
def natDigitsF : Nat → Nat → Str
  | 0, _ => []
  | fuel + 1, n =>
    if n < 10 then [digitChar n] else natDigitsF fuel (n / 10) ++ [digitChar (n % 10)]

/-- Decimal digits of `n`, no leading zeros (`n = 0` gives `"0"`). -/
def natDigits (n : Nat) : Str := natDigitsF (n + 1) n

/-- Zero-pad on the left to width `k` (Python's `f"{n:0kd}"` for
nonnegative `n`). -/
def padZ (k : Nat) (s : Str) : Str := List.replicate (k - s.length) '0' ++ s

/-- Digit groups accepted by Python `int()` after sign removal:
nonempty decimal digits with single `_` separators strictly between
digits (PEP 515). -/
def okDigits : Str → Bool
  | [] => false
  | [c] => isDigit c
  | c :: d :: t => isDigit c && (if d = '_' then okDigits t else okDigits (d :: t))

/-- Python `int(s)` on a string: strips whitespace, allows one sign,
then underscore-grouped decimal digits; anything else raises
`ValueError` (`none`).  Non-ASCII digits are out of scope. -/
def pyInt (s : Str) : Option Int :=
  if (strip s).head? = some '+' then
    if okDigits (strip s).tail then
      some ((digitsVal ((strip s).tail.filter (· ≠ '_')) : Nat) : Int)
    else none
  else if (strip s).head? = some '-' then
    if okDigits (strip s).tail then
      some (-((digitsVal ((strip s).tail.filter (· ≠ '_')) : Nat) : Int))
    else none
  else if okDigits (strip s) then
    some ((digitsVal ((strip s).filter (· ≠ '_')) : Nat) : Int)
  else none

theorem length_dropWhile_le (p : α → Bool) (l : List α) :
    (l.dropWhile p).length ≤ l.length := by
  induction l with
  | nil => simp
  | cons a l ih =>
    rw [List.dropWhile]
    cases p a
    · simp
    · simpa using Nat.le_succ_of_le ih

/-- `s.split()`, fuelled (fuel bounds the length, each step consumes
at least one character). -/
def splitWsF : Nat → Str → List Str
  | 0, _ => []
  | _, [] => []
  | fuel + 1, c :: rest =>
    if isSpace c then splitWsF fuel rest
    else (c :: rest.takeWhile (fun d => ! isSpace d)) ::
         splitWsF fuel (rest.dropWhile (fun d => ! isSpace d))

/-- Python `s.split()` (no separator): split on whitespace runs,
discarding empty pieces. -/
def splitWs (s : Str) : List Str := splitWsF (s.length + 1) s

/-- `s.split()[0]`: `none` models the `IndexError` raised on an empty
result list. -/
def firstToken (s : Str) : Option Str := (splitWs s).head?

/-- Python `s.split(sep)` for a one-character separator: empty pieces
are kept, and splitting the empty string gives one empty piece. -/
def splitChar (sep : Char) : Str → List Str
  | [] => [[]]
  | c :: rest =>
    if c = sep then [] :: splitChar sep rest
    else
      match splitChar sep rest with
      | p :: ps => (c :: p) :: ps
      | [] => [[c]]

/-! ## The timestamp-line regular expression

`TS_LINE_RE = ^\s*(.+?)\s*-->\s*(.+?)(\s+.*)?$`, used with `re.match`
on single lines (at most one trailing newline, no interior newline).
The backtracking search order (greedy `\s*` longest first, lazy `(.+?)`
shortest first, greedy optional group) resolves deterministically to:

* let `core` be the line without its single trailing newline and `W`
  the length of its maximal whitespace prefix;
* the matched arrow is the least occurrence of `"-->"` at a position
  `a ≥ W + 1` that is followed by at least one character; if there is
  none but an arrow sits exactly at position `W ≥ 1` (again followed
  by at least one character), that arrow is matched with group 1 being
  the single whitespace character just before it; otherwise no match;
* group 1 spans from `W` to the start of the whitespace run that
  immediately precedes the arrow (but never collapses to length 0);
* on the suffix `B` after the arrow: if `B` is pure whitespace,
  group 2 is the last character of `B` and group 3 is empty; otherwise
  group 2 is the first whitespace-delimited token of `B` and group 3
  is everything after it.

This characterisation was checked against CPython's `re` on the corner
cases (arrow at the start, several arrows, all-whitespace right side,
tabs, trailing settings).  The single deliberate difference: Python may
leave trailing whitespace (including the newline) inside group 3,
while this model keeps group 3 newline-free; every consumer of group 3
in the source `rstrip`s it (or ignores it), so the difference is
unobservable. -/

/-- `"-->"` sits at the head and at least one character follows it. -/
def arrowHead : Str → Bool
  | '-' :: '-' :: '>' :: _ :: _ => true
  | _ => false

/-- Index of the first arrow-with-successor occurrence. -/
def findArrowIdx : Str → Option Nat
  | [] => none
  | l@(_ :: rest) =>
    if arrowHead l then some 0 else (findArrowIdx rest).map (· + 1)

/-- Drop one trailing newline, as `$` allows. -/
def coreOf (line : Str) : Str :=
  if line.getLast? = some '\n' then line.dropLast else line

/-- Length of the maximal whitespace suffix. -/
def wsSuffixLen (s : Str) : Nat := (s.reverse.takeWhile isSpace).length

/-- Length of the maximal whitespace prefix (the span of `^\s*` before
backtracking). -/
def wsLen (core : Str) : Nat := (core.takeWhile isSpace).length

/-- Position of the arrow the regex commits to: least occurrence at
index `≥ W + 1` followed by at least one character, else the arrow at
exactly `W ≥ 1` (group 1 then being the whitespace character before
it), else no match. -/
def arrowPos (core : Str) : Option Nat :=
  match (findArrowIdx (core.drop (wsLen core + 1))).map (· + (wsLen core + 1)) with
  | some a => some a
  | none =>
    if 1 ≤ wsLen core && arrowHead (core.drop (wsLen core)) then some (wsLen core)
    else none

/-- Group 1: from the end of `^\s*` to the start of the whitespace run
before the arrow (never collapsing below one character). -/
def group1Of (core : Str) (a : Nat) : Str :=
  if a = wsLen core then core.drop (wsLen core - 1) |>.take 1
  else (core.drop (wsLen core)).take
    (max (wsLen core + 1) (a - wsSuffixLen (core.take a)) - wsLen core)

/-- Groups 2 and 3 on the suffix `b` after the arrow: the last
character and nothing when `b` is pure whitespace, otherwise the first
whitespace-delimited token and the remainder. -/
def groupRight (b : Str) : Str × Str :=
  if (b.takeWhile isSpace).length = b.length then
    (b.drop ((b.takeWhile isSpace).length - 1) |>.take 1, [])
  else ((b.drop ((b.takeWhile isSpace).length)).takeWhile (fun c => ! isSpace c),
        (b.drop ((b.takeWhile isSpace).length)).dropWhile (fun c => ! isSpace c))

/-- `TS_LINE_RE.match(line)`: `some (g1, g2, g3)` with the three
groups, `none` when the regex does not match. -/
def tsLineMatch (line : Str) : Option (Str × Str × Str) :=
  match arrowPos (coreOf line) with
  | none => none
  | some a =>
    some (group1Of (coreOf line) a, (groupRight ((coreOf line).drop (a + 3))).1,
          (groupRight ((coreOf line).drop (a + 3))).2)

/-! ## Timestamp codec (`parse_ts_to_ms`, `ms_to_vtt`) -/

/-- Full match of `\d+(\.\d+)?` (ASCII digits): the guard of the
pure-numeric-seconds dialect. -/
def fullmatchNum (s : Str) : Bool :=
  match splitChar '.' s with
  | [a] => decide (a ≠ []) && a.all isDigit
  | [a, b] => decide (a ≠ []) && decide (b ≠ []) && a.all isDigit && b.all isDigit
  | _ => false

/-- `ts.strip().replace(",", ".")`, the entry normalisation of
`parse_ts_to_ms`. -/
def tsNormalize (ts0 : Str) : Str :=
  (strip ts0).map (fun c => if c = ',' then '.' else c)

/-- `rest_parts[0] if rest_parts[0] else "0"`: the seconds field of the
last colon segment. -/
def ssOf (rest : Str) : Str :=
  match splitChar '.' rest with
  | [] => []
  | r0 :: _ => if r0.isEmpty then ['0'] else r0

/-- `re.sub(r"\D", "", "".join(rest_parts[1:]) if len(rest_parts) > 1
else "0")`: concatenated post-dot digit groups, non-digits dropped. -/
def msDigitsOf (rest : Str) : Str :=
  if 1 < (splitChar '.' rest).length then
    (((splitChar '.' rest).drop 1).flatten).filter isDigit
  else ['0'].filter isDigit

/-- `ms_digits or "0"` after the digit filter. -/
def msdFinal (rest : Str) : Str :=
  if (msDigitsOf rest).isEmpty then ['0'] else msDigitsOf rest

/-- `int(ms_digits.ljust(3, "0")[:3])`: the millisecond field. -/
def mmmOf (rest : Str) : Nat :=
  digitsVal ((msdFinal rest ++ List.replicate (3 - (msdFinal rest).length) '0').take 3)

/-- The common body of the two colon-segment cases:
`(int(hh)*3600 + int(mm)*60 + int(ss)) * 1000 + mmm`, `none` when any
`int()` raises. -/
def parseFields (hh mm rest : Str) : Option Int :=
  match pyInt hh, pyInt mm, pyInt (ssOf rest) with
  | some h, some m, some s => some ((h * 3600 + m * 60 + s) * 1000 + (mmmOf rest : Int))
  | _, _, _ => none

/-- `parse_ts_to_ms(ts)`.  `pureSec` is the abstract pure-numeric
branch `int(float(ts) * 1000)` (IEEE-754, see the header); it is only
consulted on strings that fully match `\d+(\.\d+)?`.  `none` models a
raised exception (caught or not at each call site). -/
def parse_ts_to_ms (pureSec : Str → Option Int) (ts0 : Str) : Option Int :=
  if (tsNormalize ts0).isEmpty then none
  else if fullmatchNum (tsNormalize ts0) then pureSec (tsNormalize ts0)
  else
    match splitChar ':' (tsNormalize ts0) with
    | [hh, mm, rest] => parseFields hh mm rest
    | [mm, rest] => parseFields ['0'] mm rest
    | _ => none

/-- `ms_to_vtt(ms)`: clamp negatives to 0, then render
`HH:MM:SS.mmm` with unbounded zero-padded hours. -/
def ms_to_vtt (msIn : Int) : Str :=
  let ms := msIn.toNat
  let hh := ms / 3600000
  let r1 := ms % 3600000
  let mm := r1 / 60000
  let r2 := r1 % 60000
  let ss := r2 / 1000
  let mmm := r2 % 1000
  padZ 2 (natDigits hh) ++ (':' :: (padZ 2 (natDigits mm) ++
    (':' :: (padZ 2 (natDigits ss) ++ ('.' :: padZ 3 (natDigits mmm))))))

/-! ## Document splitter (`split_header_and_body`) -/

/-- Strip every leading U+FEFF, as `line.lstrip("﻿")`. -/
def lstripBom (l : Str) : Str := l.dropWhile (· = '﻿')

/-- `lines[i].lstrip("﻿").strip().upper().startswith("WEBVTT")`
(`str.upper` modelled on ASCII via `Char.toUpper`). -/
def startsWithWEBVTT (l : Str) : Bool :=
  ((strip (lstripBom l)).map Char.toUpper).take 6 = "WEBVTT".toList

/-- `split_header_and_body(lines)`: skip leading blank lines
(discarding them), consume an optional BOM-stripped signature line,
then the non-blank metadata run, then the blank separator run, into
the header; the rest is the body. -/
def split_header_and_body (lines : List Str) : List Str × List Str :=
  let r0 := lines.dropWhile isBlank
  let (sig, r1) :=
    match r0 with
    | [] => (([] : List Str), ([] : List Str))
    | l :: rest => if startsWithWEBVTT l then ([lstripBom l], rest) else ([], r0)
  let meta := r1.takeWhile (fun l => ! isBlank l)
  let r2 := r1.dropWhile (fun l => ! isBlank l)
  let seps := r2.takeWhile isBlank
  let body := r2.dropWhile isBlank
  (sig ++ meta ++ seps, body)

/-! ## Cue parser (`iter_cues`) -/

/-- The central cue record of the splitter stage. -/
structure Cue where
  start_ms : Int
  end_ms : Int
  text_lines : List Str
  ts_line : Str
deriving DecidableEq

/-- After a cue's timestamp line: skip its non-blank text lines, then
the blank separator run. -/
def dropBlock (rest : List Str) : List Str :=
  (rest.dropWhile (fun l => ! isBlank l)).dropWhile isBlank

theorem dropBlock_length_le (rest : List Str) :
    (dropBlock rest).length ≤ rest.length :=
  le_trans (length_dropWhile_le _ _) (length_dropWhile_le _ _)

/-- `iter_cues(body_lines)`.  A line matching the grammar whose decode
fails is skipped (`except Exception: continue`); but
`end_raw_full.split()[0]` sits outside the `try`, so an all-whitespace
right side raises `IndexError` out of the whole routine (`.error`). -/
def iterCuesF (pureSec : Str → Option Int) : Nat → List Str → Except Unit (List Cue)
  | 0, _ => .ok []
  | _, [] => .ok []
  | fuel + 1, line :: rest =>
    match tsLineMatch line with
    | none => iterCuesF pureSec fuel rest
    | some (g1, g2, _) =>
      match firstToken (strip g2) with
      | none => .error ()
      | some end_raw =>
        match parse_ts_to_ms pureSec (strip g1), parse_ts_to_ms pureSec end_raw with
        | some s, some e =>
          let txt := (rest.takeWhile (fun l => ! isBlank l)).map rstripNl
          (iterCuesF pureSec fuel (dropBlock rest)).map
            (Cue.mk s e txt (rstripNl line) :: ·)
        | _, _ => iterCuesF pureSec fuel rest

def iter_cues (pureSec : Str → Option Int) (body : List Str) : Except Unit (List Cue) :=
  iterCuesF pureSec (body.length + 1) body

/-! ## Checker (`check_and_collect_issues`) -/

inductive IssueKind
  | parse_fail
  | end_before_start
  | start_decreased
  | overlap
deriving DecidableEq

/-- One diagnostic: line number, kind, raw line (the human-readable
detail message of the source is presentation only and not modelled). -/
structure Issue where
  line_no : Nat
  kind : IssueKind
  raw : Str
deriving DecidableEq

/-- First pass of `check_and_collect_issues`: per-line scan collecting
`PARSE_FAIL` / `END_BEFORE_START` issues and decodable cues, numbering
lines from `idx`.  As in the source, `split()[0]` sits outside the
`try`, so an all-whitespace right side aborts (`.error`). -/
def checkScan (pureSec : Str → Option Int) (idx : Nat) :
    List Str → Except Unit (List Issue × List (Nat × Int × Int × Str))
  | [] => .ok ([], [])
  | line :: rest =>
    match tsLineMatch line with
    | none => checkScan pureSec (idx + 1) rest
    | some (g1, g2, _) =>
      match firstToken (strip g2) with
      | none => .error ()
      | some end_raw =>
        let raw := rstripNl line
        match parse_ts_to_ms pureSec (strip g1), parse_ts_to_ms pureSec end_raw with
        | some s, some e =>
          (checkScan pureSec (idx + 1) rest).map fun (issues, cues) =>
            ((if e < s then [Issue.mk idx .end_before_start raw] else []) ++ issues,
             (idx, s, e, raw) :: cues)
        | _, _ =>
          (checkScan pureSec (idx + 1) rest).map fun (issues, cues) =>
            (Issue.mk idx .parse_fail raw :: issues, cues)

/-- Second pass: timeline sanity over the decodable cues, flagging
`START_DECREASED` and `OVERLAP` against the previous decodable cue. -/
def checkTimeline : Option (Int × Int) → List (Nat × Int × Int × Str) → List Issue
  | _, [] => []
  | none, (_, s, e, _) :: rest => checkTimeline (some (s, e)) rest
  | some (ls, le), (ln, s, e, raw) :: rest =>
    ((if s < ls then [Issue.mk ln .start_decreased raw] else []) ++
     (if s < le then [Issue.mk ln .overlap raw] else [])) ++
    checkTimeline (some (s, e)) rest

/-- `check_and_collect_issues(lines)`: per-line issues followed by the
timeline issues, plus the collected cue tuples. -/
def check_and_collect_issues (pureSec : Str → Option Int) (lines : List Str) :
    Except Unit (List Issue × List (Nat × Int × Int × Str)) :=
  (checkScan pureSec 1 lines).map fun (issues, cues) =>
    (issues ++ checkTimeline none cues, cues)

/-! ## Timeline fixer (`fix_vtt_timestamps`) -/

inductive FixAction
  | skip_unparseable
  | swap_start_end
  | normalize
deriving DecidableEq

/-- The body of the fixer's per-line loop.  `.ok (newLine, act)` is the
line placed in the output plus the logged action (if any); `.error`
models the uncaught `IndexError` from `end_and_more.split()[0]` on an
all-whitespace right side. -/
def fixLine (pureSec : Str → Option Int) (line : Str) :
    Except Unit (Str × Option FixAction) :=
  match tsLineMatch line with
  | none => .ok (line, none)
  | some (g1, g2, g3) =>
    let start_raw := strip g1
    let end_and_more := strip g2
    match firstToken end_and_more with
    | none => .error ()
    | some end_raw =>
      match parse_ts_to_ms pureSec start_raw, parse_ts_to_ms pureSec end_raw with
      | some s0, some e0 =>
        let swapped := decide (e0 < s0)
        let s := if e0 < s0 then e0 else s0
        let e := if e0 < s0 then s0 else e0
        let new_line :=
          rstrip (ms_to_vtt s ++ " --> ".toList ++ ms_to_vtt e ++ g3) ++ ['\n']
        .ok (new_line,
          if swapped then some .swap_start_end
          else if strip line ≠ strip new_line then some .normalize else none)
      | _, _ => .ok (line, some .skip_unparseable)

/-- `fix_vtt_timestamps(lines)`: map `fixLine` over the document,
logging `(line number, action)` pairs, numbering from `idx`. -/
def fixFrom (pureSec : Str → Option Int) (idx : Nat) :
    List Str → Except Unit (List Str × List (Nat × FixAction))
  | [] => .ok ([], [])
  | line :: rest =>
    match fixLine pureSec line with
    | .error u => .error u
    | .ok (nl, act) =>
      match fixFrom pureSec (idx + 1) rest with
      | .error u => .error u
      | .ok (outs, log) =>
        .ok (nl :: outs, (match act with | some a => [(idx, a)] | none => []) ++ log)

/-- `fix_vtt_timestamps(lines)` with line numbers starting at 1. -/
def fix_vtt_timestamps (pureSec : Str → Option Int) (lines : List Str) :
    Except Unit (List Str × List (Nat × FixAction)) :=
  fixFrom pureSec 1 lines

/-! ## Chunker (`cmd_split`) -/

/-- `chunk_index(start_ms) = max(0, (start_ms - base_ms) // chunk_ms)`
(Python `//` is floor division: `Int.fdiv`). -/
def chunk_index (base_ms chunk_ms s : Int) : Int :=
  max 0 ((s - base_ms).fdiv chunk_ms)

/-- Append `c` to bucket `idx`, growing the bucket list with empty
buckets as needed (`while len(buckets) <= idx: buckets.append([])`). -/
def appendAt : List (List Cue) → Nat → Cue → List (List Cue)
  | [], 0, c => [[c]]
  | [], n + 1, c => [] :: appendAt [] n c
  | b :: bs, 0, c => (b ++ [c]) :: bs
  | b :: bs, n + 1, c => b :: appendAt bs n c

/-- The grouping loop of `cmd_split`. -/
def bucketsOf (base_ms chunk_ms : Int) (cues : List Cue) : List (List Cue) :=
  cues.foldl (fun bs c => appendAt bs (chunk_index base_ms chunk_ms c.start_ms).toNat c) []

/-- `min(c.start_ms for c in cues)` over a nonempty list. -/
def minStart (c : Cue) (cs : List Cue) : Int :=
  cs.foldl (fun a d => min a d.start_ms) c.start_ms

/-- The chunking base: absolute zero, or the largest multiple of
`chunk_ms` not exceeding the minimum cue start. -/
def splitBase (start_at_zero : Bool) (chunk_ms : Int) (c : Cue) (cs : List Cue) : Int :=
  if start_at_zero then 0 else ((minStart c cs).fdiv chunk_ms) * chunk_ms

/-- `enumerate(buckets, start=1)` with empty buckets filtered out: one
entry per written chunk file, `(part number, bucket)`. -/
def emittedParts (buckets : List (List Cue)) : List (Nat × List Cue) :=
  (List.enumFrom 1 buckets).filter (fun p => ! p.2.isEmpty)

/-- Output filename of one chunk: `f"{stem}_part{idx}.vtt"`. -/
def partFileName (stem : Str) (idx : Nat) : Str :=
  stem ++ "_part".toList ++ natDigits idx ++ ".vtt".toList

/-- The filenames written by one `cmd_split` run, in write order. -/
def emittedFileNames (stem : Str) (buckets : List (List Cue)) : List Str :=
  (emittedParts buckets).map (fun p => partFileName stem p.1)

/-! ## Merger (`cmd_merge`) -/

/-- A candidate input file of the merger: its filename and its decoded
text lines (file enumeration and reading are the out-of-scope
collaborators; this embedding starts from their results). -/
structure MFile where
  name : Str
  lines : List Str
deriving DecidableEq

/-- `Path.stem`: the filename without its last suffix (a dot at
position 0 or at the very end does not start a suffix). -/
def pathStem (name : Str) : Str :=
  match (name.reverse.takeWhile (· ≠ '.')).length with
  | 0 => name   -- trailing dot: pathlib keeps the name whole
  | k => if k + 1 < name.length then name.take (name.length - k - 1)
         else name  -- the only dot is at position 0 (or there is none)

/-- `PARTNUM_RE.search(stem)` for
`(?:^|[^a-zA-Z])_?part\s*0*(\d+)` (case-insensitive): try each start
position left to right; a position qualifies when it is 0 or preceded
by a non-letter; then optional `_`, literal `part`, greedy whitespace,
greedy zeros, then at least one digit (backtracking one zero back when
the zeros run ate the last digit). -/
def partnumCore (s : Str) : Option Nat :=
  let s1 := match s with | '_' :: r => r | r => r
  match s1 with
  | p0 :: a0 :: r0 :: t0 :: rest =>
    if [p0.toLower, a0.toLower, r0.toLower, t0.toLower] = "part".toList then
      let afterWs := rest.dropWhile isSpace
      let afterZe := afterWs.dropWhile (· = '0')
      match afterZe.takeWhile isDigit with
      | [] => if (afterWs.takeWhile (· = '0')).length ≥ 1 then some 0 else none
      | ds => some (digitsVal ds)
    else none
  | _ => none

/-- Search loop of `PARTNUM_RE.search`: first qualifying position wins
(`prevOk` records whether the previous character allows a match
here). -/
def partnumSearch (prevOk : Bool) : Str → Option Nat
  | [] => none
  | c :: rest =>
    match (if prevOk then partnumCore (c :: rest) else none) with
    | some n => some n
    | none => partnumSearch (! isAsciiAlpha c) rest

/-- `part_number_from_name(path)`: regex on the stem, with the huge
sentinel `10^9` when nothing matches. -/
def part_number_from_name (name : Str) : Int :=
  match partnumSearch true (pathStem name) with
  | some n => (n : Int)
  | none => 10 ^ 9

/-- The scan inside `first_cue_start_ms`: first body line whose
left-hand timestamp decodes; decode failures are caught and the scan
continues (only group 1 is touched, so no `IndexError` is possible
here). -/
def firstCueScan (pureSec : Str → Option Int) : List Str → Int
  | [] => 10 ^ 12
  | line :: rest =>
    match tsLineMatch line with
    | none => firstCueScan pureSec rest
    | some (g1, _, _) =>
      match parse_ts_to_ms pureSec (strip g1) with
      | some v => v
      | none => firstCueScan pureSec rest

/-- `first_cue_start_ms(path)` on the file's lines, with the huge
sentinel `10^12` when no cue start decodes. -/
def first_cue_start_ms (pureSec : Str → Option Int) (lines : List Str) : Int :=
  firstCueScan pureSec (split_header_and_body lines).2

/-- Python `<` on strings: lexicographic by code point. -/
def strLt : Str → Str → Bool
  | [], [] => false
  | [], _ :: _ => true
  | _ :: _, [] => false
  | a :: as, b :: bs =>
    if a.toNat < b.toNat then true
    else if b.toNat < a.toNat then false
    else strLt as bs

/-- Python `<=` on the merger's sort-key tuples
`(first cue start, part number, lowercased name)`. -/
def mergeKeyLe (k1 k2 : Int × Int × Str) : Bool :=
  if k1.1 < k2.1 then true
  else if k2.1 < k1.1 then false
  else if k1.2.1 < k2.2.1 then true
  else if k2.2.1 < k1.2.1 then false
  else strLt k1.2.2 k2.2.2 || decide (k1.2.2 = k2.2.2)

/-- Stable insertion into a sorted list: the new element goes before
the first element it is `le` to, hence after earlier equal keys —
Python's stable `list.sort`. -/
def insertLe (le : α → α → Bool) (a : α) : List α → List α
  | [] => [a]
  | b :: bs => if le a b then a :: b :: bs else b :: insertLe le a bs

/-- Stable insertion sort (Python `list.sort(key=...)`). -/
def sortLe (le : α → α → Bool) : List α → List α
  | [] => []
  | a :: as => insertLe le a (sortLe le as)

/-- `f.name.lower()` (ASCII model of `str.lower`). -/
def lowerName (s : Str) : Str := s.map Char.toLower

/-- The sort key computed by `cmd_merge` for one file. -/
def mergeKey (pureSec : Str → Option Int) (f : MFile) : Int × Int × Str :=
  (first_cue_start_ms pureSec f.lines, part_number_from_name f.name, lowerName f.name)

/-- `cmd_merge`'s ordering of its input files: stable sort, ascending
by the key tuple.  (The subsequent body concatenation follows this
order; the ordering is the content of claim C9.) -/
def mergeOrder (pureSec : Str → Option Int) (files : List MFile) : List MFile :=
  sortLe (fun a b => mergeKeyLe (mergeKey pureSec a) (mergeKey pureSec b)) files

/-- `True` (as a Bool) when the line contributes no decodable cue start
to `first_cue_start_ms`: either the timestamp-line regex does not match,
or the left-hand field fails to decode. -/
def noCueLine (pureSec : Str → Option Int) (l : Str) : Bool :=
  match tsLineMatch l with
  | none => true
  | some (g1, _, _) => (parse_ts_to_ms pureSec (strip g1)).isNone

/-- Concrete merger inputs: three files whose first cues start at
20000 ms, 5000 ms and 15000 ms. -/
def mergeA : MFile :=
  ⟨"a.vtt".toList,
   ["WEBVTT\n", "\n", "00:00:20.000 --> 00:00:21.000\n", "aaa\n"].map String.toList⟩

def mergeB : MFile :=
  ⟨"b.vtt".toList,
   ["WEBVTT\n", "\n", "00:00:05.000 --> 00:00:06.000\n", "bbb\n"].map String.toList⟩

def mergeC : MFile :=
  ⟨"c.vtt".toList,
   ["WEBVTT\n", "\n", "00:00:15.000 --> 00:00:16.000\n", "ccc\n"].map String.toList⟩

/-- A file with zero parsable cues. -/
def mergeX : MFile :=
  ⟨"x.vtt".toList, ["WEBVTT\n", "\n", "hello\n"].map String.toList⟩

/-- A file whose first cue starts at 280000 h = 1.008 * 10^12 ms,
beyond the merger's zero-cue sentinel of 10^12 ms. -/
def mergeY : MFile :=
  ⟨"y.vtt".toList,
   ["WEBVTT\n", "\n", "280000:00:00.000 --> 280000:00:01.000\n", "yyy\n"].map
     String.toList⟩

/-! ## Compressor (`cmd_compress`) -/

/-- `PUNCT_END`. -/
def PUNCT_END : List Char := ['.', '?', '!', '。', '？', '！', '…']

/-- `TAG_RE.sub("", s)` for `TAG_RE = <[^>]+>`: drop every leftmost
non-overlapping `<...>` group with at least one character inside. -/
def tagSubF : Nat → Str → Str
  | 0, _ => []
  | _, [] => []
  | fuel + 1, '<' :: rest =>
    match rest.dropWhile (· ≠ '>') with
    | '>' :: after =>
      if rest.takeWhile (· ≠ '>') = [] then '<' :: tagSubF fuel rest
      else tagSubF fuel after
    | _ => '<' :: tagSubF fuel rest
  | fuel + 1, c :: rest => c :: tagSubF fuel rest

def tagSub (s : Str) : Str := tagSubF (s.length + 1) s

/-- `MULTI_SPACE_RE.sub(" ", s)`: collapse every whitespace run to a
single space. -/
def collapseWsF : Nat → Str → Str
  | 0, _ => []
  | _, [] => []
  | fuel + 1, c :: rest =>
    if isSpace c then ' ' :: collapseWsF fuel (rest.dropWhile isSpace)
    else c :: collapseWsF fuel rest

def collapseWs (s : Str) : Str := collapseWsF (s.length + 1) s

/-- `clean_text(s)`: strip, remove tags, collapse whitespace. -/
def clean_text (s : Str) : Str := collapseWs (tagSub (strip s))

/-- `ends_sentence(s)`: the cleaned text is empty or ends in a
sentence-terminal punctuation mark. -/
def ends_sentence (s : Str) : Bool :=
  match (clean_text s).getLast? with
  | none => true
  | some c => PUNCT_END.contains c

/-- One parsed cue of the compressor's own scanner:
`(start_ms, end_ms, start_ts, end_ts, text)`. -/
structure CCue where
  start_ms : Int
  end_ms : Int
  start_ts : Str
  end_ts : Str
  txt : Str
deriving DecidableEq

/-- `" ".join(parts)`. -/
def joinSpace : List Str → Str
  | [] => []
  | [p] => p
  | p :: ps => p ++ ' ' :: joinSpace ps

/-- The header-skipping prologue of `cmd_compress` (its own, not
`split_header_and_body`): blanks, an optional signature line, the
following non-blank run, the following blank run. -/
def compressSkipHeader (lines : List Str) : List Str :=
  let r0 := lines.dropWhile isBlank
  let r1 :=
    match r0 with
    | [] => ([] : List Str)
    | l :: rest => if startsWithWEBVTT l then rest else r0
  (r1.dropWhile (fun l => ! isBlank l)).dropWhile isBlank

/-- The cue-parsing loop of `cmd_compress`.  Unlike `iter_cues`, the
two `parse_ts_to_ms` calls are NOT wrapped in `try`, so any decode
failure (and the `split()[0]` `IndexError`) propagates and aborts the
whole compression (`.error`). -/
def compressParseF (pureSec : Str → Option Int) : Nat → List Str → Except Unit (List CCue)
  | 0, _ => .ok []
  | _, [] => .ok []
  | fuel + 1, line :: rest =>
    if isBlank line then compressParseF pureSec fuel rest
    else
      match tsLineMatch line with
      | none => compressParseF pureSec fuel rest
      | some (g1, g2, _) =>
        match firstToken (strip g2) with
        | none => .error ()
        | some end_raw =>
          match parse_ts_to_ms pureSec (strip g1), parse_ts_to_ms pureSec end_raw with
          | some s, some e =>
            let txt := clean_text (joinSpace ((rest.takeWhile (fun l => ! isBlank l)).map strip))
            (compressParseF pureSec fuel (dropBlock rest)).map
              (CCue.mk s e (ms_to_vtt s) (ms_to_vtt e) txt :: ·)
          | _, _ => .error ()

def compressParse (pureSec : Str → Option Int) (body : List Str) : Except Unit (List CCue) :=
  compressParseF pureSec (body.length + 1) body

/-- `cues.sort(key=lambda x: (x[0], x[1]))`: `<=` on `(start, end)`. -/
def cueKeyLe (a b : CCue) : Bool :=
  if a.start_ms < b.start_ms then true
  else if b.start_ms < a.start_ms then false
  else a.end_ms ≤ b.end_ms

/-- The compressor's pre-sort. -/
def sortCues (cs : List CCue) : List CCue := sortLe cueKeyLe cs

/-- The fusion fold of `cmd_compress`: state is
`(cur_start_ms, cur_end_ms, cur_start_ts, cur_end_ts, buffer)`; each
emitted entry is `(cur_start_ts, cur_end_ts, buffer)`. -/
def mergeLoop (gap_ms max_chars : Int) :
    Int × Int × Str × Str × Str → List CCue → List (Str × Str × Str)
  | (_, _, cst, cet, buf), [] => [(cst, cet, buf)]
  | (cs, ce, cst, cet, buf), c :: rest =>
    if c.start_ms - ce ≤ gap_ms ∧ ¬ ends_sentence buf ∧
       (buf.length : Int) + 1 + (c.txt.length : Int) ≤ max_chars then
      mergeLoop gap_ms max_chars
        (cs, max ce c.end_ms, cst, ms_to_vtt (max ce c.end_ms),
         clean_text (buf ++ ' ' :: c.txt)) rest
    else
      (cst, cet, buf) ::
        mergeLoop gap_ms max_chars
          (c.start_ms, c.end_ms, c.start_ts, c.end_ts, c.txt) rest

/-- The merged-cue list produced by `cmd_compress` (empty input cues
raise before this point). -/
def compressMerged (gap_ms max_chars : Int) : List CCue → List (Str × Str × Str)
  | [] => []
  | c :: cs =>
    mergeLoop gap_ms max_chars (c.start_ms, c.end_ms, c.start_ts, c.end_ts, c.txt) cs

/-- `cmd_compress(lines, gap_ms, max_chars)` up to the merged-cue list
(the final serialisation writes `WEBVTT`, a blank, then each merged
triple).  `.error` covers both the uncaught decode failure inside the
parse loop and the `No cues parsed` `ValueError`. -/
def cmd_compress (pureSec : Str → Option Int) (lines : List Str)
    (gap_ms max_chars : Int) : Except Unit (List (Str × Str × Str)) :=
  (compressParse pureSec (compressSkipHeader lines)).bind fun cues =>
    if cues.isEmpty then .error ()
    else .ok (compressMerged gap_ms max_chars (sortCues cues))

/-! ## The specification's description of the fusion fold (claim C7)

The following definitions are written from the specification's own
words, not from the source, so that the source-derived `compressMerged`
can be compared against them: the fold keeps an accumulator (start
time, end time, rendered start timestamp, text); the next cue is fused
exactly when the gap is at most the threshold, the accumulator's
cleaned text does not already end in a sentence-terminal punctuation
mark (an empty text counts as already terminal), and the prospective
fused text `text + " " + next.text` is no longer than `max_chars`;
fusing extends the end to the max of the two ends and re-cleans the
concatenation; otherwise the accumulator is flushed and restarted from
the next cue; the final accumulator is always flushed. -/

structure SpecAcc where
  s_ms : Int
  e_ms : Int
  s_ts : Str
  text : Str

/-- The specification's "already ends in a sentence-terminal mark":
empty cleaned text counts as terminal. -/
def specTerminal (s : Str) : Bool :=
  match (clean_text s).getLast? with
  | none => true
  | some c => PUNCT_END.contains c

/-- The specification's three-way fusion condition. -/
def specShouldFuse (gap_ms max_chars : Int) (a : SpecAcc) (c : CCue) : Bool :=
  decide (c.start_ms - a.e_ms ≤ gap_ms) &&
  ! specTerminal a.text &&
  decide ((a.text.length : Int) + 1 + (c.txt.length : Int) ≤ max_chars)

/-- Fusing: end becomes the max, the texts are concatenated with a
space and re-cleaned. -/
def specFuse (a : SpecAcc) (c : CCue) : SpecAcc :=
  { a with e_ms := max a.e_ms c.end_ms,
           text := clean_text (a.text ++ ' ' :: c.txt) }

/-- Flushing the accumulator as a finished cue. -/
def specFlush (a : SpecAcc) : Str × Str × Str :=
  (a.s_ts, ms_to_vtt a.e_ms, a.text)

def specStep (gap_ms max_chars : Int) : SpecAcc → List CCue → List (Str × Str × Str)
  | a, [] => [specFlush a]
  | a, c :: rest =>
    if specShouldFuse gap_ms max_chars a c then
      specStep gap_ms max_chars (specFuse a c) rest
    else
      specFlush a ::
        specStep gap_ms max_chars ⟨c.start_ms, c.end_ms, c.start_ts, c.txt⟩ rest

def specCompress (gap_ms max_chars : Int) : List CCue → List (Str × Str × Str)
  | [] => []
  | c :: cs => specStep gap_ms max_chars ⟨c.start_ms, c.end_ms, c.start_ts, c.txt⟩ cs

/-- The specification's three-cue compressor example: "Hello" (ends
non-terminal) then "world." 100 ms later fuse; the third cue arrives
0 ms after the then-terminal accumulator and starts a new cue. -/
def compressDoc : List Str :=
  ["WEBVTT\n", "\n",
   "00:00:00.000 --> 00:00:01.000\n", "Hello\n", "\n",
   "00:00:01.100 --> 00:00:02.000\n", "world.\n", "\n",
   "00:00:02.000 --> 00:00:03.000\n", "again\n"].map String.toList

/-! ## Basic lemmas: characters, stripping, digits -/

theorem isSpace_iff {c : Char} : isSpace c = true ↔
    c = ' ' ∨ c = '\t' ∨ c = '\n' ∨ c = '\r' ∨ c = '\x0b' ∨ c = '\x0c' := by
  simp [isSpace, or_assoc]

theorem isDigit_not_space {c : Char} (h : isDigit c = true) : isSpace c = false := by
  rcases (Bool.eq_false_or_eq_true (isSpace c)).symm with hs | hs
  · exact hs
  · rcases isSpace_iff.mp hs with h1 | h1 | h1 | h1 | h1 | h1 <;>
      (subst h1; exact absurd h (by decide))

theorem isDigit_ne {c d : Char} (h : isDigit c = true) (hd : isDigit d = false) :
    c ≠ d := fun he => by subst he; rw [h] at hd; cases hd

theorem digitChar_isDigit {d : Nat} : isDigit (digitChar d) = true := by
  unfold digitChar
  split <;> decide

theorem digitChar_toNat {d : Nat} (h : d < 10) : (digitChar d).toNat = 48 + d := by
  interval_cases d <;> rfl

theorem natDigitsF_all_digit :
    ∀ (fuel n : Nat), ∀ c ∈ natDigitsF fuel n, isDigit c = true := by
  intro fuel
  induction fuel with
  | zero => intro n c hc; simp [natDigitsF] at hc
  | succ f ih =>
    intro n c hc
    rw [natDigitsF] at hc
    split at hc
    · rw [List.mem_singleton] at hc
      subst hc
      exact digitChar_isDigit
    · rcases List.mem_append.mp hc with hc | hc
      · exact ih _ c hc
      · rw [List.mem_singleton] at hc
        subst hc
        exact digitChar_isDigit

theorem natDigits_all_digit (n : Nat) : ∀ c ∈ natDigits n, isDigit c = true :=
  natDigitsF_all_digit (n + 1) n

theorem natDigits_ne_nil (n : Nat) : natDigits n ≠ [] := by
  unfold natDigits natDigitsF
  split
  · simp
  · simp

theorem padZ_all_digit {k : Nat} {s : Str} (h : ∀ c ∈ s, isDigit c = true) :
    ∀ c ∈ padZ k s, isDigit c = true := by
  intro c hc
  rcases List.mem_append.mp hc with hc | hc
  · rw [List.eq_of_mem_replicate hc]; decide
  · exact h c hc

theorem padZ_ne_nil {k : Nat} {s : Str} (h : s ≠ []) : padZ k s ≠ [] := by
  unfold padZ
  intro he
  rcases List.append_eq_nil.mp he with ⟨-, h2⟩
  exact h h2

/-- A nonempty all-digit token: the shape of every piece of a
canonical timestamp. -/
def DigitTok (s : Str) : Prop := s ≠ [] ∧ ∀ c ∈ s, isDigit c = true

theorem digitTok_padZ_natDigits (k n : Nat) : DigitTok (padZ k (natDigits n)) :=
  ⟨padZ_ne_nil (natDigits_ne_nil n), padZ_all_digit (natDigits_all_digit n)⟩

theorem lstrip_eq_self {s : Str} (h : ∀ c ∈ s, isSpace c = false) : lstrip s = s := by
  unfold lstrip
  cases s with
  | nil => rfl
  | cons c r =>
    rw [List.dropWhile_cons, h c (List.mem_cons_self c r)]
    simp

theorem rstrip_eq_self {s : Str} (h : ∀ c ∈ s, isSpace c = false) : rstrip s = s := by
  unfold rstrip
  cases hr : s.reverse with
  | nil => simp_all
  | cons c r =>
    have hc : isSpace c = false := by
      apply h
      rw [← List.mem_reverse, hr]
      exact List.mem_cons_self c r
    rw [List.dropWhile_cons, hc]
    simp [← hr]

theorem strip_eq_self {s : Str} (h : ∀ c ∈ s, isSpace c = false) : strip s = s := by
  unfold strip
  rw [rstrip_eq_self h, lstrip_eq_self h]

theorem strip_of_digitTok {s : Str} (h : DigitTok s) : strip s = s :=
  strip_eq_self (fun c hc => isDigit_not_space (h.2 c hc))

theorem okDigits_of_digitTok {s : Str} (h : DigitTok s) : okDigits s = true := by
  obtain ⟨hne, hall⟩ := h
  induction s with
  | nil => exact absurd rfl hne
  | cons c r ih =>
    have hc := hall c (List.mem_cons_self c r)
    cases r with
    | nil => simpa [okDigits] using hc
    | cons d t =>
      have hd := hall d (List.mem_cons_of_mem c (List.mem_cons_self d t))
      have hdu : d ≠ '_' := isDigit_ne hd (by decide)
      have hr := ih (by simp) (fun x hx => hall x (List.mem_cons_of_mem c hx))
      simp only [okDigits, if_neg hdu, hc, hr, Bool.and_self]

theorem filter_ne_under_of_digit {s : Str} (h : ∀ c ∈ s, isDigit c = true) :
    s.filter (· ≠ '_') = s := by
  apply List.filter_eq_self.mpr
  intro c hc
  have := isDigit_ne (h c hc) (show isDigit '_' = false by decide)
  simpa using this

theorem digitsVal_foldl (v : Nat) (b : Str) :
    List.foldl (fun a c => 10 * a + (c.toNat - 48)) v b
      = v * 10 ^ b.length + digitsVal b := by
  induction b generalizing v with
  | nil => simp [digitsVal]
  | cons c r ih =>
    have hval : digitsVal (c :: r) = (c.toNat - 48) * 10 ^ r.length + digitsVal r := by
      have h0 : digitsVal (c :: r)
          = List.foldl (fun a c => 10 * a + (c.toNat - 48)) (10 * 0 + (c.toNat - 48)) r := rfl
      rw [h0, ih]
      ring
    simp only [List.foldl_cons, List.length_cons]
    rw [ih, hval]
    ring

theorem digitsVal_append (a b : Str) :
    digitsVal (a ++ b) = digitsVal a * 10 ^ b.length + digitsVal b := by
  unfold digitsVal
  rw [List.foldl_append]
  exact digitsVal_foldl _ b

theorem digitsVal_replicate_zero (k : Nat) : digitsVal (List.replicate k '0') = 0 := by
  induction k with
  | zero => rfl
  | succ n ih =>
    rw [List.replicate_succ]
    unfold digitsVal at ih ⊢
    simpa using ih

theorem digitsVal_padZ (k : Nat) (s : Str) : digitsVal (padZ k s) = digitsVal s := by
  unfold padZ
  rw [digitsVal_append, digitsVal_replicate_zero]
  simp

theorem natDigitsF_fuel {fuel n : Nat} (h : n < fuel) :
    natDigitsF fuel n = natDigits n := by
  unfold natDigits
  induction fuel using Nat.strong_induction_on generalizing n with
  | _ fuel ih =>
    cases fuel with
    | zero => omega
    | succ f =>
      rw [natDigitsF]
      by_cases h10 : n < 10
      · rw [if_pos h10]
        cases n with
        | zero => rfl
        | succ m =>
          rw [natDigitsF, if_pos h10]
      · rw [if_neg h10]
        conv_rhs => rw [natDigitsF]
        rw [if_neg h10]
        have hdiv : n / 10 < n := Nat.div_lt_self (by omega) (by omega)
        rw [ih f (by omega) (by omega), ih n h (by omega)]

theorem digitsVal_natDigits (n : Nat) : digitsVal (natDigits n) = n := by
  induction n using Nat.strong_induction_on with
  | _ n ih =>
    unfold natDigits
    rw [natDigitsF]
    split
    · rename_i h
      show 10 * 0 + ((digitChar n).toNat - 48) = n
      rw [digitChar_toNat h]
      omega
    · rename_i h
      have hdiv : n / 10 < n := Nat.div_lt_self (by omega) (by omega)
      rw [natDigitsF_fuel (by omega), digitsVal_append, ih (n / 10) hdiv]
      show n / 10 * 10 ^ 1 + (10 * 0 + ((digitChar (n % 10)).toNat - 48)) = n
      rw [digitChar_toNat (Nat.mod_lt n (by omega))]
      omega

theorem pyInt_digitTok {s : Str} (h : DigitTok s) :
    pyInt s = some ((digitsVal s : Nat) : Int) := by
  obtain ⟨hne, hall⟩ := h
  unfold pyInt
  rw [strip_of_digitTok ⟨hne, hall⟩]
  cases s with
  | nil => exact absurd rfl hne
  | cons c r =>
    have hc := hall c (List.mem_cons_self c r)
    have h1 : ¬ ((c :: r).head? = some '+') := by
      simp only [List.head?_cons, Option.some_inj]
      exact isDigit_ne hc (by decide)
    have h2 : ¬ ((c :: r).head? = some '-') := by
      simp only [List.head?_cons, Option.some_inj]
      exact isDigit_ne hc (by decide)
    rw [if_neg h1, if_neg h2, if_pos (okDigits_of_digitTok ⟨by simp, hall⟩),
      filter_ne_under_of_digit hall]

theorem pyInt_padZ_natDigits (k n : Nat) :
    pyInt (padZ k (natDigits n)) = some (n : Int) := by
  rw [pyInt_digitTok (digitTok_padZ_natDigits k n), digitsVal_padZ, digitsVal_natDigits]

/-! ## Splitting lemmas and the codec roundtrip -/

theorem splitChar_of_not_mem {sep : Char} {s : Str} (h : sep ∉ s) :
    splitChar sep s = [s] := by
  induction s with
  | nil => rfl
  | cons c r ih =>
    have hc : ¬ c = sep := fun he => h (he ▸ List.mem_cons_self c r)
    rw [splitChar, if_neg hc, ih (fun hm => h (List.mem_cons_of_mem c hm))]

theorem splitChar_append {sep : Char} {a : Str} (b : Str) (h : sep ∉ a) :
    splitChar sep (a ++ sep :: b) = a :: splitChar sep b := by
  induction a with
  | nil =>
    simp only [List.nil_append]
    rw [splitChar, if_pos rfl]
  | cons c r ih =>
    have hc : ¬ c = sep := fun he => h (he ▸ List.mem_cons_self c r)
    have hr := ih (fun hm => h (List.mem_cons_of_mem c hm))
    simp only [List.cons_append]
    rw [splitChar, if_neg hc, hr]

theorem not_mem_of_all_digit {s : Str} {d : Char} (h : ∀ c ∈ s, isDigit c = true)
    (hd : isDigit d = false) : d ∉ s :=
  fun hm => absurd (h d hm) (by rw [hd]; exact Bool.false_ne_true)

/-- The canonical rendering, decomposed: `ms_to_vtt` is four digit
tokens glued with `:`, `:`, `.`. -/
theorem ms_to_vtt_eq (msIn : Int) :
    ms_to_vtt msIn =
      padZ 2 (natDigits (msIn.toNat / 3600000)) ++
      (':' :: (padZ 2 (natDigits (msIn.toNat % 3600000 / 60000)) ++
      (':' :: (padZ 2 (natDigits (msIn.toNat % 3600000 % 60000 / 1000)) ++
      ('.' :: padZ 3 (natDigits (msIn.toNat % 3600000 % 60000 % 1000))))))) := rfl

theorem natDigits_length_le_three {n : Nat} (h : n < 1000) :
    (natDigits n).length ≤ 3 := by
  unfold natDigits
  rw [natDigitsF]
  split
  · simp
  · rename_i h10
    have hd1 : n / 10 < n := Nat.div_lt_self (by omega) (by omega)
    rw [natDigitsF_fuel (by omega), natDigits]
    rw [natDigitsF]
    split
    · simp
    · rename_i h100
      have hd2 : n / 10 / 10 < n / 10 := Nat.div_lt_self (by omega) (by omega)
      rw [natDigitsF_fuel (by omega), natDigits]
      rw [natDigitsF]
      split
      · simp
      · rename_i h1000
        have : n / 10 / 10 < 10 := by omega
        omega

theorem padZ_length {k : Nat} {s : Str} (h : s.length ≤ k) :
    (padZ k s).length = k := by
  unfold padZ
  simp
  omega

/-- Characters of the canonical rendering: digits, `:` and `.` only. -/
theorem ms_to_vtt_chars (msIn : Int) :
    ∀ c ∈ ms_to_vtt msIn, isDigit c = true ∨ c = ':' ∨ c = '.' := by
  rw [ms_to_vtt_eq]
  intro c hc
  simp only [List.mem_append, List.mem_cons] at hc
  rcases hc with h | h | h | h | h | h | h
  · exact Or.inl ((digitTok_padZ_natDigits 2 _).2 c h)
  · exact Or.inr (Or.inl h)
  · exact Or.inl ((digitTok_padZ_natDigits 2 _).2 c h)
  · exact Or.inr (Or.inl h)
  · exact Or.inl ((digitTok_padZ_natDigits 2 _).2 c h)
  · exact Or.inr (Or.inr h)
  · exact Or.inl ((digitTok_padZ_natDigits 3 _).2 c h)

theorem ms_to_vtt_no_space (msIn : Int) : ∀ c ∈ ms_to_vtt msIn, isSpace c = false := by
  intro c hc
  rcases ms_to_vtt_chars msIn c hc with h | h | h
  · exact isDigit_not_space h
  · subst h; decide
  · subst h; decide

theorem ms_to_vtt_no_dash (msIn : Int) : ∀ c ∈ ms_to_vtt msIn, c ≠ '-' := by
  intro c hc
  rcases ms_to_vtt_chars msIn c hc with h | h | h
  · exact isDigit_ne h (by decide)
  · subst h; decide
  · subst h; decide

theorem ms_to_vtt_no_comma (msIn : Int) : ∀ c ∈ ms_to_vtt msIn, c ≠ ',' := by
  intro c hc
  rcases ms_to_vtt_chars msIn c hc with h | h | h
  · exact isDigit_ne h (by decide)
  · subst h; decide
  · subst h; decide

theorem ms_to_vtt_ne_nil (msIn : Int) : ms_to_vtt msIn ≠ [] := by
  rw [ms_to_vtt_eq]
  intro h
  exact padZ_ne_nil (natDigits_ne_nil _) (List.append_eq_nil.mp h).1

theorem map_eq_self_of_fixed {f : Char → Char} {s : Str}
    (h : ∀ c ∈ s, f c = c) : s.map f = s := by
  induction s with
  | nil => rfl
  | cons c r ih =>
    rw [List.map_cons, h c (List.mem_cons_self c r),
      ih (fun x hx => h x (List.mem_cons_of_mem c hx))]

/-- The shape of the last colon segment of a canonical rendering. -/
theorem restField_lemmas {ssT msT : Str} (dS : DigitTok ssT) (dP : DigitTok msT)
    (hlen : msT.length = 3) :
    ssOf (ssT ++ '.' :: msT) = ssT ∧ mmmOf (ssT ++ '.' :: msT) = digitsVal msT := by
  have hsplitDot : splitChar '.' (ssT ++ '.' :: msT) = [ssT, msT] := by
    rw [splitChar_append _ (not_mem_of_all_digit dS.2 (by decide)),
      splitChar_of_not_mem (not_mem_of_all_digit dP.2 (by decide))]
  have hssNE : ssT.isEmpty = false := by
    cases hc : ssT with
    | nil => exact absurd hc dS.1
    | cons _ _ => rfl
  have hfilter : msT.filter isDigit = msT := List.filter_eq_self.mpr dP.2
  have hmsNE : msT.isEmpty = false := by
    cases hc : msT with
    | nil => exact absurd hc dP.1
    | cons _ _ => rfl
  constructor
  · unfold ssOf
    rw [hsplitDot]
    simp [hssNE]
  · have hmsd : msDigitsOf (ssT ++ '.' :: msT) = msT := by
      unfold msDigitsOf
      rw [hsplitDot]
      simp [hfilter]
    unfold mmmOf msdFinal
    rw [hmsd, hmsNE]
    simp only [Bool.false_eq_true, if_false, hlen]
    rw [Nat.sub_self, List.replicate_zero, List.append_nil, ← hlen, List.take_length]

/-- `parseFields` on the canonical pieces. -/
theorem parseFields_canonical {hhT mmT ssT msT : Str}
    (dH : DigitTok hhT) (dM : DigitTok mmT) (dS : DigitTok ssT) (dP : DigitTok msT)
    (hlen : msT.length = 3) :
    parseFields hhT mmT (ssT ++ '.' :: msT) =
      some ((((digitsVal hhT : Int) * 3600 + (digitsVal mmT : Int) * 60 +
        (digitsVal ssT : Int)) * 1000 + (digitsVal msT : Int))) := by
  obtain ⟨hss, hmmm⟩ := restField_lemmas dS dP hlen
  unfold parseFields
  rw [hss, hmmm, pyInt_digitTok dH, pyInt_digitTok dM, pyInt_digitTok dS]

/-- `parse_ts_to_ms` decodes every canonical rendering back to the
clamped value, for every instantiation of the abstract float branch
(the rendering contains `:`, so the pure-numeric guard rejects it). -/
theorem parse_ms_to_vtt (pureSec : Str → Option Int) (msIn : Int) :
    parse_ts_to_ms pureSec (ms_to_vtt msIn) = some ((msIn.toNat : Nat) : Int) := by
  set n := msIn.toNat with hn
  have hE := ms_to_vtt_eq msIn
  rw [← hn] at hE
  set hhT := padZ 2 (natDigits (n / 3600000)) with hhh
  set mmT := padZ 2 (natDigits (n % 3600000 / 60000)) with hmm
  set ssT := padZ 2 (natDigits (n % 3600000 % 60000 / 1000)) with hss
  set msT := padZ 3 (natDigits (n % 3600000 % 60000 % 1000)) with hms
  have dH : DigitTok hhT := digitTok_padZ_natDigits 2 _
  have dM : DigitTok mmT := digitTok_padZ_natDigits 2 _
  have dS : DigitTok ssT := digitTok_padZ_natDigits 2 _
  have dP : DigitTok msT := digitTok_padZ_natDigits 3 _
  have hNorm : tsNormalize (ms_to_vtt msIn) = ms_to_vtt msIn := by
    unfold tsNormalize
    rw [strip_eq_self (ms_to_vtt_no_space msIn),
      map_eq_self_of_fixed (fun c hc => if_neg (ms_to_vtt_no_comma msIn c hc))]
  have hNE : (ms_to_vtt msIn).isEmpty = false := by
    cases hc : ms_to_vtt msIn with
    | nil => exact absurd hc (ms_to_vtt_ne_nil msIn)
    | cons _ _ => rfl
  have hsplit3 : splitChar ':' (ms_to_vtt msIn) = [hhT, mmT, ssT ++ '.' :: msT] := by
    rw [hE]
    have h2 : splitChar ':' (ssT ++ '.' :: msT) = [ssT ++ '.' :: msT] := by
      apply splitChar_of_not_mem
      intro hm
      rcases List.mem_append.mp hm with hm1 | hm1
      · exact not_mem_of_all_digit dS.2 (by decide) hm1
      · rcases List.mem_cons.mp hm1 with hm2 | hm2
        · exact absurd hm2.symm (by decide)
        · exact not_mem_of_all_digit dP.2 (by decide) hm2
    have h1 : splitChar ':' (mmT ++ (':' :: (ssT ++ '.' :: msT)))
        = mmT :: splitChar ':' (ssT ++ '.' :: msT) :=
      splitChar_append _ (not_mem_of_all_digit dM.2 (by decide))
    rw [splitChar_append _ (not_mem_of_all_digit dH.2 (by decide)), h1, h2]
  have hfm : fullmatchNum (ms_to_vtt msIn) = false := by
    unfold fullmatchNum
    have hshape : ms_to_vtt msIn
        = (hhT ++ (':' :: (mmT ++ (':' :: ssT)))) ++ '.' :: msT := by
      rw [hE]
      simp
    have hsp : splitChar '.' (ms_to_vtt msIn)
        = (hhT ++ (':' :: (mmT ++ (':' :: ssT)))) :: splitChar '.' msT := by
      rw [hshape]
      apply splitChar_append
      intro hm
      simp only [List.mem_append, List.mem_cons] at hm
      rcases hm with h | h | h | h | h
      · exact not_mem_of_all_digit dH.2 (by decide) h
      · exact absurd h.symm (by decide)
      · exact not_mem_of_all_digit dM.2 (by decide) h
      · exact absurd h.symm (by decide)
      · exact not_mem_of_all_digit dS.2 (by decide) h
    rw [hsp]
    have hmem : ':' ∈ hhT ++ (':' :: (mmT ++ (':' :: ssT))) := by simp
    have hallF : (hhT ++ (':' :: (mmT ++ (':' :: ssT)))).all isDigit = false := by
      rcases Bool.eq_false_or_eq_true
        ((hhT ++ (':' :: (mmT ++ (':' :: ssT)))).all isDigit) with h | h
      · have := List.all_eq_true.mp h ':' hmem
        exact absurd this (by decide)
      · exact h
    cases hrest : splitChar '.' msT with
    | nil => simp [hallF]
    | cons p ps =>
      cases ps with
      | nil => simp [hallF]
      | cons q qs =>
        cases qs with
        | nil => simp [hallF]
        | cons _ _ => rfl
  have hmsLen : msT.length = 3 :=
    padZ_length (natDigits_length_le_three (Nat.mod_lt _ (by omega)))
  unfold parse_ts_to_ms
  rw [hNorm, hNE, hfm]
  simp only [Bool.false_eq_true, if_false]
  rw [hsplit3]
  show parseFields hhT mmT (ssT ++ '.' :: msT) = some ((n : Nat) : Int)
  rw [parseFields_canonical dH dM dS dP hmsLen]
  rw [hhh, hmm, hss, hms]
  rw [digitsVal_padZ, digitsVal_padZ, digitsVal_padZ, digitsVal_padZ,
    digitsVal_natDigits, digitsVal_natDigits, digitsVal_natDigits, digitsVal_natDigits]
  push_cast
  congr 1
  omega

/-- A concrete instantiation of the abstract pure-numeric-seconds
branch, used to evaluate witnesses.  None of the concrete inputs below
fully match `\d+(\.\d+)?` (they all contain `:` or letters), so the
stub is never consulted and any instantiation gives the same value. -/
def pureSecStub : Str → Option Int := fun _ => none

/-- C4.  For every millisecond value `m ≥ 0`, decoding the encoded
text yields the same value back (`parse_ts_to_ms (ms_to_vtt m) = m`),
for every instantiation of the abstract pure-numeric branch; encoding
is total by construction (`ms_to_vtt` is a total function into
strings) and clamps every negative input to 0 (it renders exactly what
it renders at 0). -/
theorem C4_codec_roundtrip :
    (∀ (pureSec : Str → Option Int) (m : Nat),
      parse_ts_to_ms pureSec (ms_to_vtt (m : Int)) = some (m : Int)) ∧
    (∀ m : Int, m < 0 → ms_to_vtt m = ms_to_vtt 0) := by
  constructor
  · intro pureSec m
    rw [parse_ms_to_vtt pureSec (m : Int)]
    norm_num
  · intro m hm
    rw [ms_to_vtt_eq, ms_to_vtt_eq]
    have h0 : m.toNat = (0 : Int).toNat := by omega
    rw [h0]

/-- Witness for C4 at `m = 46550` and `m = -5`. -/
theorem C4_codec_roundtrip_witness :
    parse_ts_to_ms pureSecStub (ms_to_vtt ((46550 : Nat) : Int)) = some ((46550 : Nat) : Int) ∧
    ms_to_vtt (-5) = ms_to_vtt 0 :=
  ⟨C4_codec_roundtrip.1 pureSecStub 46550, C4_codec_roundtrip.2 (-5) (by decide)⟩

/-! ## Matcher lemmas on canonical timestamp lines -/

theorem takeWhile_eq_nil_of_all_false {p : Char → Bool} {l : Str}
    (h : ∀ c ∈ l, p c = false) : l.takeWhile p = [] := by
  cases l with
  | nil => rfl
  | cons c r =>
    rw [List.takeWhile_cons, h c (List.mem_cons_self c r)]
    rfl

theorem takeWhile_append_all {p : Char → Bool} {x : Str} (y : Str)
    (h : ∀ c ∈ x, p c = true) : (x ++ y).takeWhile p = x ++ y.takeWhile p := by
  induction x with
  | nil => rfl
  | cons c r ih =>
    have hc := h c (List.mem_cons_self c r)
    have hr := ih (fun d hd => h d (List.mem_cons_of_mem c hd))
    simp [List.takeWhile_cons, hc, hr]

theorem dropWhile_append_all {p : Char → Bool} {x : Str} (y : Str)
    (h : ∀ c ∈ x, p c = true) : (x ++ y).dropWhile p = y.dropWhile p := by
  induction x with
  | nil => rfl
  | cons c r ih =>
    have hc := h c (List.mem_cons_self c r)
    have hr := ih (fun d hd => h d (List.mem_cons_of_mem c hd))
    simp [List.dropWhile_cons, hc, hr]

theorem dropWhile_head_false {α : Type} {p : α → Bool} {l : List α} {c : α}
    (h : (l.dropWhile p).head? = some c) : p c = false := by
  induction l with
  | nil => simp at h
  | cons a r ih =>
    rw [List.dropWhile_cons] at h
    by_cases hp : p a = true
    · rw [if_pos hp] at h
      exact ih h
    · rw [if_neg hp] at h
      simp only [List.head?_cons, Option.some_inj] at h
      subst h
      exact Bool.eq_false_iff.mpr hp

theorem arrowHead_head {l : Str} (h : arrowHead l = true) : l.head? = some '-' := by
  unfold arrowHead at h
  split at h
  · rfl
  · cases h

theorem findArrowIdx_append {pre suf : Str} (hpre : ∀ c ∈ pre, c ≠ '-')
    (hsuf : arrowHead suf = true) : findArrowIdx (pre ++ suf) = some pre.length := by
  induction pre with
  | nil =>
    cases hs : suf with
    | nil => rw [hs] at hsuf; cases hsuf
    | cons c r =>
      rw [hs] at hsuf
      simp only [List.nil_append, hs]
      rw [findArrowIdx, if_pos hsuf]
      rfl
  | cons p ps ih =>
    have hph : arrowHead (p :: (ps ++ suf)) = false := by
      rcases Bool.eq_false_or_eq_true (arrowHead (p :: (ps ++ suf))) with h | h
      · have := arrowHead_head h
        simp only [List.head?_cons, Option.some_inj] at this
        exact absurd this (hpre p (List.mem_cons_self p ps))
      · exact h
    rw [List.cons_append, findArrowIdx, if_neg (by simp [hph]),
      ih (fun c hc => hpre c (List.mem_cons_of_mem p hc))]
    rfl

theorem wsSuffixLen_append_space {x : Str} (h : ∀ c ∈ x, isSpace c = false) :
    wsSuffixLen (x ++ [' ']) = 1 := by
  unfold wsSuffixLen
  rw [List.reverse_append]
  show ((' ' :: x.reverse).takeWhile isSpace).length = 1
  rw [List.takeWhile_cons]
  simp only [show isSpace ' ' = true from rfl, if_true]
  rw [takeWhile_eq_nil_of_all_false (fun c hc => h c (List.mem_reverse.mp hc))]
  rfl

/-- `rstrip` distributes over an append whose left part ends in a
non-whitespace character. -/
theorem rstrip_append {x : Str} (y : Str) {d : Char}
    (hx : x.getLast? = some d) (hd : isSpace d = false) :
    rstrip (x ++ y) = x ++ rstrip y := by
  unfold rstrip
  rw [List.reverse_append]
  have hhead : x.reverse.head? = some d := by
    rw [List.head?_reverse]
    exact hx
  have hcase := @List.dropWhile_append _ isSpace y.reverse x.reverse
  rcases Bool.eq_false_or_eq_true (y.reverse.dropWhile isSpace).isEmpty with he | he
  · rw [hcase, if_pos he]
    have hy : (y.reverse.dropWhile isSpace) = [] := List.isEmpty_iff.mp he
    cases hxr : x.reverse with
    | nil => rw [hxr] at hhead; simp at hhead
    | cons a r =>
      rw [hxr] at hhead
      simp only [List.head?_cons, Option.some_inj] at hhead
      subst hhead
      rw [List.dropWhile_cons, hd]
      simp only [Bool.false_eq_true, if_false]
      rw [hy]
      simp only [List.reverse_nil, List.append_nil]
      rw [← hxr]
      simp
  · rw [hcase, if_neg (by simp [he])]
    rw [List.reverse_append]
    simp

theorem rstrip_self_append (s : Str) :
    s = rstrip s ++ (s.reverse.takeWhile isSpace).reverse := by
  unfold rstrip
  have h := List.takeWhile_append_dropWhile (p := isSpace) (l := s.reverse)
  have h2 := congrArg List.reverse h
  rw [List.reverse_append] at h2
  simp only [List.reverse_reverse] at h2
  exact h2.symm

theorem rstrip_head_space {s : Str}
    (h : ∀ c, s.head? = some c → isSpace c = true) :
    ∀ c, (rstrip s).head? = some c → isSpace c = true := by
  intro c hc
  have hpre := rstrip_self_append s
  apply h
  rw [hpre]
  cases hr : rstrip s with
  | nil => rw [hr] at hc; simp at hc
  | cons a r =>
    rw [hr] at hc
    simp only [List.head?_cons, Option.some_inj] at hc
    subst hc
    rfl

theorem rstrip_last_not_space {s : Str} {d : Char}
    (h : (rstrip s).getLast? = some d) : isSpace d = false := by
  unfold rstrip at h
  rw [List.getLast?_reverse] at h
  exact dropWhile_head_false h

theorem rstrip_eq_self_of_last {s : Str} {d : Char}
    (h : s.getLast? = some d) (hd : isSpace d = false) : rstrip s = s := by
  unfold rstrip
  cases hr : s.reverse with
  | nil =>
    have : s = [] := by simpa using congrArg List.reverse hr
    subst this
    simp at h
  | cons a r =>
    have hhead : s.reverse.head? = some d := by rw [List.head?_reverse]; exact h
    rw [hr] at hhead
    simp only [List.head?_cons, Option.some_inj] at hhead
    subst hhead
    rw [List.dropWhile_cons, hd]
    simp only [Bool.false_eq_true, if_false]
    rw [← hr]
    simp

theorem rstrip_idem (s : Str) : rstrip (rstrip s) = rstrip s := by
  cases hr : (rstrip s).getLast? with
  | none =>
    rw [List.getLast?_eq_none_iff] at hr
    rw [hr]
    rfl
  | some d =>
    exact rstrip_eq_self_of_last hr (rstrip_last_not_space hr)

theorem coreOf_append_nl (x : Str) : coreOf (x ++ ['\n']) = x := by
  unfold coreOf
  rw [if_pos (by rw [List.getLast?_concat]), List.dropLast_concat]

/-- A clean token: nonempty, no whitespace, no dash — the shape of a
canonical timestamp inside a rewritten line. -/
def CleanTok (t : Str) : Prop :=
  t ≠ [] ∧ ∀ c ∈ t, isSpace c = false ∧ c ≠ '-'

theorem cleanTok_ms_to_vtt (msIn : Int) : CleanTok (ms_to_vtt msIn) :=
  ⟨ms_to_vtt_ne_nil msIn,
   fun c hc => ⟨ms_to_vtt_no_space msIn c hc, ms_to_vtt_no_dash msIn c hc⟩⟩

/-- The committed match of `TS_LINE_RE` on a canonical line
`T1 ++ " --> " ++ T2 ++ T0 ++ "\n"`: exactly the three groups
`(T1, T2, T0)`, when the two timestamps are clean tokens and the
settings tail starts with whitespace (or is empty). -/
theorem tsLineMatch_canonical {t1 t2 t0 : Str} (h1 : CleanTok t1) (h2 : CleanTok t2)
    (h0 : ∀ c, t0.head? = some c → isSpace c = true) :
    tsLineMatch ((t1 ++ (' ' :: '-' :: '-' :: '>' :: ' ' :: (t2 ++ t0))) ++ ['\n'])
      = some (t1, t2, t0) := by
  obtain ⟨h1ne, h1c⟩ := h1
  obtain ⟨h2ne, h2c⟩ := h2
  set x := t1 ++ (' ' :: '-' :: '-' :: '>' :: ' ' :: (t2 ++ t0)) with hx
  have hcore : coreOf (x ++ ['\n']) = x := coreOf_append_nl x
  obtain ⟨c1, t1r, ht1⟩ : ∃ c r, t1 = c :: r := by
    cases t1 with
    | nil => exact absurd rfl h1ne
    | cons c r => exact ⟨c, r, rfl⟩
  obtain ⟨c2, t2r, ht2⟩ : ∃ c r, t2 = c :: r := by
    cases t2 with
    | nil => exact absurd rfl h2ne
    | cons c r => exact ⟨c, r, rfl⟩
  have hwsLen : wsLen x = 0 := by
    unfold wsLen
    rw [hx, ht1]
    rw [List.cons_append, List.takeWhile_cons,
      (h1c c1 (by rw [ht1]; exact List.mem_cons_self c1 t1r)).1]
    rfl
  have harrowIdx : findArrowIdx (x.drop 1) = some t1.length := by
    have hdrop : x.drop 1 = (t1r ++ [' ']) ++ ('-' :: '-' :: '>' :: ' ' :: (t2 ++ t0)) := by
      rw [hx, ht1]
      simp
    rw [hdrop]
    rw [findArrowIdx_append]
    · simp [ht1]
    · intro c hc
      rcases List.mem_append.mp hc with hc | hc
      · exact (h1c c (by rw [ht1]; exact List.mem_cons_of_mem c1 hc)).2
      · rw [List.mem_singleton] at hc
        subst hc
        decide
    · rfl
  have harrow : arrowPos x = some (t1.length + 1) := by
    unfold arrowPos
    rw [hwsLen]
    simp only [Nat.zero_add]
    rw [harrowIdx]
    rfl
  have htake1 : x.take t1.length = t1 := by
    rw [hx]
    exact List.take_left t1 _
  have hwsSuf : wsSuffixLen (x.take (t1.length + 1)) = 1 := by
    have : x.take (t1.length + 1) = t1 ++ [' '] := by
      rw [hx]
      have hsh : t1 ++ (' ' :: '-' :: '-' :: '>' :: ' ' :: (t2 ++ t0))
          = (t1 ++ [' ']) ++ ('-' :: '-' :: '>' :: ' ' :: (t2 ++ t0)) := by simp
      rw [hsh]
      have hlen : (t1 ++ [' ']).length = t1.length + 1 := by simp
      rw [← hlen]
      exact List.take_left _ _
    rw [this]
    exact wsSuffixLen_append_space (fun c hc => (h1c c hc).1)
  have hg1 : group1Of x (t1.length + 1) = t1 := by
    unfold group1Of
    rw [hwsLen, hwsSuf]
    have hne0 : ¬ (t1.length + 1 = 0) := by omega
    rw [if_neg hne0]
    simp only [Nat.zero_add, Nat.add_sub_cancel, Nat.sub_zero, List.drop_zero]
    have hmax : max 1 t1.length = t1.length := by
      have : 1 ≤ t1.length := by rw [ht1]; simp
      omega
    rw [hmax, htake1]
  have hb : x.drop (t1.length + 1 + 3) = ' ' :: (t2 ++ t0) := by
    rw [hx]
    have hsh : t1 ++ (' ' :: '-' :: '-' :: '>' :: ' ' :: (t2 ++ t0))
        = (t1 ++ [' ', '-', '-', '>']) ++ (' ' :: (t2 ++ t0)) := by simp
    rw [hsh]
    have hlen : (t1 ++ [' ', '-', '-', '>']).length = t1.length + 1 + 3 := by simp
    rw [← hlen]
    exact List.drop_left _ _
  have htwB : ((' ' :: (t2 ++ t0)).takeWhile isSpace).length = 1 := by
    rw [List.takeWhile_cons]
    simp only [show isSpace ' ' = true from rfl, if_true]
    rw [ht2, List.cons_append, List.takeWhile_cons,
      (h2c c2 (by rw [ht2]; exact List.mem_cons_self c2 t2r)).1]
    rfl
  have ht0tw : t0.takeWhile (fun c => ! isSpace c) = [] := by
    cases ht0 : t0 with
    | nil => rfl
    | cons c r =>
      rw [List.takeWhile_cons]
      have := h0 c (by rw [ht0]; rfl)
      simp [this]
  have ht0dw : t0.dropWhile (fun c => ! isSpace c) = t0 := by
    cases ht0 : t0 with
    | nil => rfl
    | cons c r =>
      rw [List.dropWhile_cons]
      have := h0 c (by rw [ht0]; rfl)
      simp [this]
  have hgr : groupRight (' ' :: (t2 ++ t0)) = (t2, t0) := by
    unfold groupRight
    rw [htwB]
    have hlen : (' ' :: (t2 ++ t0)).length = 1 + t2.length + t0.length := by
      simp
      omega
    have hne : ¬ (1 = (' ' :: (t2 ++ t0)).length) := by
      rw [hlen, ht2]
      simp
      omega
    rw [if_neg hne]
    simp only [List.drop_one, List.tail_cons]
    rw [takeWhile_append_all t0 (fun c hc => by simp [(h2c c hc).1]),
      dropWhile_append_all t0 (fun c hc => by simp [(h2c c hc).1]),
      ht0tw, ht0dw, List.append_nil]
  unfold tsLineMatch
  rw [hcore, harrow]
  simp only
  rw [hg1, hb, hgr]

theorem splitWsF_nil (fuel : Nat) : splitWsF fuel [] = [] := by
  cases fuel <;> rfl

theorem firstToken_token {t : Str} (hne : t ≠ [])
    (h : ∀ c ∈ t, isSpace c = false) : firstToken t = some t := by
  unfold firstToken splitWs
  cases t with
  | nil => exact absurd rfl hne
  | cons c r =>
    have hlen : (c :: r).length + 1 = r.length + 1 + 1 := by simp
    rw [hlen, splitWsF, if_neg (by simp [h c (List.mem_cons_self c r)])]
    have h1 : r.takeWhile (fun d => ! isSpace d) = r :=
      List.takeWhile_eq_self_iff.mpr (fun d hd => by simp [h d (List.mem_cons_of_mem c hd)])
    have h2 : r.dropWhile (fun d => ! isSpace d) = [] :=
      List.dropWhile_eq_nil_iff.mpr
        (fun d hd => by simp [h d (List.mem_cons_of_mem c hd)])
    rw [h1, h2, splitWsF_nil]
    rfl

theorem arrow5_toList : " --> ".toList = [' ', '-', '-', '>', ' '] := rfl

theorem ms_to_vtt_toNat (x : Int) :
    ms_to_vtt ((x.toNat : Nat) : Int) = ms_to_vtt x := by
  rw [ms_to_vtt_eq, ms_to_vtt_eq, Int.toNat_natCast]

theorem ms_to_vtt_getLast (x : Int) :
    ∃ d, (ms_to_vtt x).getLast? = some d ∧ isSpace d = false := by
  cases h : (ms_to_vtt x).getLast? with
  | none =>
    rw [List.getLast?_eq_none_iff] at h
    exact absurd h (ms_to_vtt_ne_nil x)
  | some d =>
    have hmem : d ∈ ms_to_vtt x := by
      obtain ⟨hne, heq⟩ :=
        List.mem_getLast?_eq_getLast (l := ms_to_vtt x) (x := d) (by rw [h]; rfl)
      rw [heq]
      exact List.getLast_mem hne
    exact ⟨d, rfl, ms_to_vtt_no_space x d hmem⟩

/-- `rstrip` of a rendered line splits off the tail. -/
theorem rstrip_rendered (s e : Int) (g3 : Str) :
    rstrip (ms_to_vtt s ++ " --> ".toList ++ ms_to_vtt e ++ g3)
      = ((ms_to_vtt s ++ " --> ".toList) ++ ms_to_vtt e) ++ rstrip g3 := by
  obtain ⟨d, hd, hdw⟩ := ms_to_vtt_getLast e
  have hdA : ((ms_to_vtt s ++ " --> ".toList) ++ ms_to_vtt e).getLast? = some d := by
    rw [List.getLast?_append_of_ne_nil _ (ms_to_vtt_ne_nil e)]
    exact hd
  exact rstrip_append g3 hdA hdw

/-- Matching the line that the fixer renders recovers exactly the two
canonical timestamps and the (stripped) settings tail. -/
theorem tsLineMatch_rendered (s e : Int) {g3 : Str}
    (hg3 : ∀ c, g3.head? = some c → isSpace c = true) :
    tsLineMatch (rstrip (ms_to_vtt s ++ " --> ".toList ++ ms_to_vtt e ++ g3) ++ ['\n'])
      = some (ms_to_vtt s, ms_to_vtt e, rstrip g3) := by
  rw [rstrip_rendered]
  have hshape : ((ms_to_vtt s ++ " --> ".toList) ++ ms_to_vtt e) ++ rstrip g3
      = ms_to_vtt s ++ (' ' :: '-' :: '-' :: '>' :: ' ' :: (ms_to_vtt e ++ rstrip g3)) := by
    rw [arrow5_toList]
    simp
  rw [hshape]
  exact tsLineMatch_canonical (cleanTok_ms_to_vtt s) (cleanTok_ms_to_vtt e)
    (rstrip_head_space hg3)

/-- The fixer's rewrite output is a fixed point of the fixer's
per-line step: re-running `fixLine` on a canonical rendered line with
ordered values returns the line unchanged and logs nothing. -/
theorem fixLine_canonical (pureSec : Str → Option Int) {s e : Int} (hse : s ≤ e)
    {g3 : Str} (hg3 : ∀ c, g3.head? = some c → isSpace c = true) :
    fixLine pureSec
      (rstrip (ms_to_vtt s ++ " --> ".toList ++ ms_to_vtt e ++ g3) ++ ['\n'])
      = .ok (rstrip (ms_to_vtt s ++ " --> ".toList ++ ms_to_vtt e ++ g3) ++ ['\n'],
             none) := by
  have hmatch := tsLineMatch_rendered s e hg3
  have hstrip1 : strip (ms_to_vtt s) = ms_to_vtt s := strip_eq_self (ms_to_vtt_no_space s)
  have hstrip2 : strip (ms_to_vtt e) = ms_to_vtt e := strip_eq_self (ms_to_vtt_no_space e)
  have hft : firstToken (ms_to_vtt e) = some (ms_to_vtt e) :=
    firstToken_token (ms_to_vtt_ne_nil e) (ms_to_vtt_no_space e)
  have hlt : ¬ ((e.toNat : Int) < (s.toNat : Int)) := by
    have := Int.toNat_le_toNat hse
    omega
  have hstripG2 : rstrip (ms_to_vtt s ++ " --> ".toList ++ ms_to_vtt e ++ rstrip g3)
      = ((ms_to_vtt s ++ " --> ".toList) ++ ms_to_vtt e) ++ rstrip g3 := by
    rw [rstrip_rendered, rstrip_idem]
  unfold fixLine
  rw [hmatch]
  simp only [hstrip1, hstrip2, hft]
  rw [parse_ms_to_vtt, parse_ms_to_vtt]
  simp only [if_neg hlt, decide_eq_false hlt, ms_to_vtt_toNat, hstripG2]
  rw [rstrip_rendered]
  simp

/-- Group 3 of any match starts with whitespace (or is empty): it is
either empty or the residue of dropping the first token. -/
theorem tsLineMatch_g3_space {line g1 g2 g3 : Str}
    (h : tsLineMatch line = some (g1, g2, g3)) :
    ∀ c, g3.head? = some c → isSpace c = true := by
  intro c hc
  unfold tsLineMatch at h
  cases harr : arrowPos (coreOf line) with
  | none => rw [harr] at h; cases h
  | some a =>
    rw [harr] at h
    simp only [Option.some_inj, Prod.mk.injEq] at h
    obtain ⟨-, -, h3⟩ := h
    unfold groupRight at h3
    split at h3
    · rw [← h3] at hc
      cases hc
    · rw [← h3] at hc
      have := dropWhile_head_false hc
      simpa using this

/-- Per-line idempotence of the fixer: whatever `fixLine` outputs,
running `fixLine` on the output returns it unchanged, logging at most
`SKIP_UNPARSEABLE` (never `SWAP_START_END` or `NORMALIZE`). -/
theorem fixLine_fixLine (pureSec : Str → Option Int) (line : Str) {out : Str}
    {act : Option FixAction} (h : fixLine pureSec line = .ok (out, act)) :
    ∃ act2, fixLine pureSec out = .ok (out, act2) ∧
      act2 ≠ some FixAction.swap_start_end ∧ act2 ≠ some FixAction.normalize := by
  unfold fixLine at h
  cases hm : tsLineMatch line with
  | none =>
    rw [hm] at h
    simp only [Except.ok.injEq, Prod.mk.injEq] at h
    obtain ⟨h1, h2⟩ := h
    subst h1
    refine ⟨none, ?_, by simp, by simp⟩
    unfold fixLine
    rw [hm]
  | some g =>
    obtain ⟨g1, g2, g3⟩ := g
    rw [hm] at h
    simp only at h
    cases hft : firstToken (strip g2) with
    | none => rw [hft] at h; cases h
    | some tok =>
      rw [hft] at h
      simp only at h
      cases hp1 : parse_ts_to_ms pureSec (strip g1) with
      | none =>
        rw [hp1] at h
        simp only [Except.ok.injEq, Prod.mk.injEq] at h
        obtain ⟨h1, h2⟩ := h
        subst h1
        refine ⟨some FixAction.skip_unparseable, ?_, by simp, by simp⟩
        unfold fixLine
        rw [hm]
        simp only
        rw [hft]
        simp only
        rw [hp1]
      | some s0 =>
        cases hp2 : parse_ts_to_ms pureSec tok with
        | none =>
          rw [hp1, hp2] at h
          simp only [Except.ok.injEq, Prod.mk.injEq] at h
          obtain ⟨h1, h2⟩ := h
          subst h1
          refine ⟨some FixAction.skip_unparseable, ?_, by simp, by simp⟩
          unfold fixLine
          rw [hm]
          simp only
          rw [hft]
          simp only
          rw [hp1, hp2]
        | some e0 =>
          rw [hp1, hp2] at h
          simp only [Except.ok.injEq, Prod.mk.injEq] at h
          obtain ⟨h1, -⟩ := h
          have hg3 := tsLineMatch_g3_space hm
          have hse : (if e0 < s0 then e0 else s0) ≤ (if e0 < s0 then s0 else e0) := by
            split <;> omega
          refine ⟨none, ?_, by simp, by simp⟩
          rw [← h1]
          exact fixLine_canonical pureSec hse hg3

/-- Document-level second pass of the fixer: unchanged output, no
`SWAP_START_END` or `NORMALIZE` log entries. -/
theorem fixFrom_fixFrom (pureSec : Str → Option Int) :
    ∀ (lines : List Str) (idx : Nat) (out : List Str) (log : List (Nat × FixAction)),
    fixFrom pureSec idx lines = .ok (out, log) →
    ∃ log2, fixFrom pureSec idx out = .ok (out, log2) ∧
      ∀ p ∈ log2, p.2 ≠ FixAction.swap_start_end ∧ p.2 ≠ FixAction.normalize := by
  intro lines
  induction lines with
  | nil =>
    intro idx out log h
    unfold fixFrom at h
    simp only [Except.ok.injEq, Prod.mk.injEq] at h
    obtain ⟨h1, -⟩ := h
    subst h1
    exact ⟨[], rfl, by simp⟩
  | cons line rest ih =>
    intro idx out log h
    unfold fixFrom at h
    cases hl : fixLine pureSec line with
    | error u => rw [hl] at h; cases h
    | ok p =>
      obtain ⟨nl, act⟩ := p
      rw [hl] at h
      simp only at h
      cases hr : fixFrom pureSec (idx + 1) rest with
      | error u => rw [hr] at h; cases h
      | ok q =>
        obtain ⟨outs, logr⟩ := q
        rw [hr] at h
        simp only [Except.ok.injEq, Prod.mk.injEq] at h
        obtain ⟨h1, -⟩ := h
        subst h1
        obtain ⟨act2, hact2, hs2, hn2⟩ := fixLine_fixLine pureSec line hl
        obtain ⟨log2, hlog2, hgood⟩ := ih (idx + 1) outs logr hr
        cases act2 with
        | none =>
          refine ⟨log2, ?_, hgood⟩
          unfold fixFrom
          rw [hact2]
          simp only
          rw [hlog2]
          rfl
        | some a =>
          have ha1 : a ≠ FixAction.swap_start_end := fun he => hs2 (by rw [he])
          have ha2 : a ≠ FixAction.normalize := fun he => hn2 (by rw [he])
          refine ⟨(idx, a) :: log2, ?_, ?_⟩
          · unfold fixFrom
            rw [hact2]
            simp only
            rw [hlog2]
            rfl
          · intro p hp
            rcases List.mem_cons.mp hp with hp | hp
            · subst hp
              exact ⟨ha1, ha2⟩
            · exact hgood p hp

/-- C6.  Re-running the Timeline Fixer on its own fixed output
changes nothing and produces a log with zero `SWAP_START_END` and zero
`NORMALIZE` entries: the fixer's output is a fixed point. -/
theorem C6_fixer_idempotent (pureSec : Str → Option Int) (lines out : List Str)
    (log : List (Nat × FixAction))
    (h : fix_vtt_timestamps pureSec lines = .ok (out, log)) :
    ∃ log2, fix_vtt_timestamps pureSec out = .ok (out, log2) ∧
      ∀ p ∈ log2, p.2 ≠ FixAction.swap_start_end ∧ p.2 ≠ FixAction.normalize :=
  fixFrom_fixFrom pureSec lines 1 out log h

/-- Witness for C6 on the spec's own example line
`"05:00.000 --> 02:00.000 align:start"` (which the first pass swaps
and normalises). -/
theorem C6_fixer_idempotent_witness :
    fix_vtt_timestamps pureSecStub ["05:00.000 --> 02:00.000 align:start\n".toList]
      = .ok (["00:02:00.000 --> 00:05:00.000 align:start\n".toList],
             [(1, FixAction.swap_start_end)]) ∧
    ∃ log2, fix_vtt_timestamps pureSecStub
        ["00:02:00.000 --> 00:05:00.000 align:start\n".toList]
      = .ok (["00:02:00.000 --> 00:05:00.000 align:start\n".toList], log2) ∧
      ∀ p ∈ log2, p.2 ≠ FixAction.swap_start_end ∧ p.2 ≠ FixAction.normalize := by
  have h1 : fix_vtt_timestamps pureSecStub ["05:00.000 --> 02:00.000 align:start\n".toList]
      = .ok (["00:02:00.000 --> 00:05:00.000 align:start\n".toList],
             [(1, FixAction.swap_start_end)]) := by rfl
  exact ⟨h1, C6_fixer_idempotent pureSecStub _ _ _ h1⟩

/-! ## C2: the end ≥ start invariant -/

/-- The timestamp strings carried in a compressor cue are the
canonical renderings of its millisecond values (established at parse
time, maintained by the fold). -/
def tsOkC (c : CCue) : Prop :=
  c.start_ts = ms_to_vtt c.start_ms ∧ c.end_ts = ms_to_vtt c.end_ms

theorem compressParseF_tsOk (pureSec : Str → Option Int) :
    ∀ (fuel : Nat) (body : List Str) (cues : List CCue),
    compressParseF pureSec fuel body = .ok cues → ∀ c ∈ cues, tsOkC c := by
  intro fuel
  induction fuel with
  | zero =>
    intro body cues h c hc
    unfold compressParseF at h
    simp only [Except.ok.injEq] at h
    subst h
    simp at hc
  | succ f ih =>
    intro body cues h c hc
    cases body with
    | nil =>
      unfold compressParseF at h
      simp only [Except.ok.injEq] at h
      subst h
      simp at hc
    | cons line rest =>
      unfold compressParseF at h
      split at h
      · exact ih rest cues h c hc
      · cases hm : tsLineMatch line with
        | none =>
          rw [hm] at h
          exact ih rest cues h c hc
        | some g =>
          obtain ⟨g1, g2, g3⟩ := g
          rw [hm] at h
          simp only at h
          cases hft : firstToken (strip g2) with
          | none => rw [hft] at h; cases h
          | some tok =>
            rw [hft] at h
            simp only at h
            cases hp1 : parse_ts_to_ms pureSec (strip g1) with
            | none => rw [hp1] at h; cases h
            | some s =>
              cases hp2 : parse_ts_to_ms pureSec tok with
              | none => rw [hp1, hp2] at h; cases h
              | some e =>
                rw [hp1, hp2] at h
                simp only at h
                cases hr : compressParseF pureSec f (dropBlock rest) with
                | error u => rw [hr] at h; cases h
                | ok cs =>
                  rw [hr] at h
                  simp only [Except.map, Except.ok.injEq] at h
                  subst h
                  rcases List.mem_cons.mp hc with hc | hc
                  · subst hc
                    exact ⟨rfl, rfl⟩
                  · exact ih (dropBlock rest) cs hr c hc

theorem insertLe_perm (le : α → α → Bool) (a : α) (l : List α) :
    (insertLe le a l).Perm (a :: l) := by
  induction l with
  | nil => exact List.Perm.refl _
  | cons b bs ih =>
    unfold insertLe
    split
    · exact List.Perm.refl _
    · exact List.Perm.trans (List.Perm.cons b ih) (List.Perm.swap a b bs)

theorem sortLe_perm (le : α → α → Bool) (l : List α) : (sortLe le l).Perm l := by
  induction l with
  | nil => exact List.Perm.refl _
  | cons a as ih =>
    unfold sortLe
    exact List.Perm.trans (insertLe_perm le a (sortLe le as)) (List.Perm.cons a ih)

/-- Fold invariant: starting from a state with `cur_start ≤ cur_end`
and canonical timestamp strings, every merged entry decodes to a pair
with end ≥ start. -/
theorem mergeLoop_end_ge (gap_ms max_chars : Int) :
    ∀ (rest : List CCue) (cs ce : Int) (buf : Str),
    cs ≤ ce →
    (∀ c ∈ rest, c.start_ms ≤ c.end_ms ∧ tsOkC c) →
    ∀ p ∈ mergeLoop gap_ms max_chars (cs, ce, ms_to_vtt cs, ms_to_vtt ce, buf) rest,
      ∃ sv ev : Int, sv ≤ ev ∧
        ∀ pureSec, parse_ts_to_ms pureSec p.1 = some sv ∧
                   parse_ts_to_ms pureSec p.2.1 = some ev := by
  intro rest
  induction rest with
  | nil =>
    intro cs ce buf hle hrest p hp
    unfold mergeLoop at hp
    simp only [List.mem_singleton] at hp
    subst hp
    refine ⟨(cs.toNat : Int), (ce.toNat : Int), by have := Int.toNat_le_toNat hle; omega, ?_⟩
    intro pureSec
    exact ⟨parse_ms_to_vtt pureSec cs, parse_ms_to_vtt pureSec ce⟩
  | cons c rest ih =>
    intro cs ce buf hle hrest p hp
    unfold mergeLoop at hp
    split at hp
    · have hmax : ce ≤ max ce c.end_ms := le_max_left _ _
      exact ih cs (max ce c.end_ms) _ (le_trans hle hmax)
        (fun d hd => hrest d (List.mem_cons_of_mem c hd)) p hp
    · rcases List.mem_cons.mp hp with hp | hp
      · subst hp
        refine ⟨(cs.toNat : Int), (ce.toNat : Int),
          by have := Int.toNat_le_toNat hle; omega, ?_⟩
        intro pureSec
        exact ⟨parse_ms_to_vtt pureSec cs, parse_ms_to_vtt pureSec ce⟩
      · obtain ⟨hc, hts⟩ := hrest c (List.mem_cons_self c rest)
        have hrw : mergeLoop gap_ms max_chars
            (c.start_ms, c.end_ms, c.start_ts, c.end_ts, c.txt) rest
            = mergeLoop gap_ms max_chars
            (c.start_ms, c.end_ms, ms_to_vtt c.start_ms, ms_to_vtt c.end_ms, c.txt) rest := by
          rw [hts.1, hts.2]
        rw [hrw] at hp
        exact ih c.start_ms c.end_ms c.txt hc
          (fun d hd => hrest d (List.mem_cons_of_mem c hd)) p hp

theorem compressParse_tsOk {pureSec : Str → Option Int} {body : List Str}
    {cues : List CCue} (h : compressParse pureSec body = .ok cues) :
    ∀ c ∈ cues, tsOkC c :=
  compressParseF_tsOk pureSec (body.length + 1) body cues h

/-- C2 (amended).  (a) Every timestamp line the Timeline Fixer
rewrites (both fields decoded) is re-rendered with the two values in
order, so its fields decode to `start ≤ end` — swapping when needed.
(b) After a Cue Compressor pass whose parsed input cues all satisfy
`end_ms ≥ start_ms`, every cue of the output document decodes to
`end ≥ start`.  (The unconditional compressor half of the original
claim is refuted by `C2_end_ge_start_counterexample`: the compressor
never repairs a reversed input cue.) -/
theorem C2_end_ge_start :
    (∀ (pureSec : Str → Option Int) (line g1 g2 g3 tok : Str) (s0 e0 : Int)
       (out : Str) (act : Option FixAction),
      tsLineMatch line = some (g1, g2, g3) →
      firstToken (strip g2) = some tok →
      parse_ts_to_ms pureSec (strip g1) = some s0 →
      parse_ts_to_ms pureSec tok = some e0 →
      fixLine pureSec line = .ok (out, act) →
      tsLineMatch out = some (ms_to_vtt (min s0 e0), ms_to_vtt (max s0 e0), rstrip g3) ∧
      ∃ sv ev : Int, sv ≤ ev ∧
        parse_ts_to_ms pureSec (ms_to_vtt (min s0 e0)) = some sv ∧
        parse_ts_to_ms pureSec (ms_to_vtt (max s0 e0)) = some ev) ∧
    (∀ (pureSec : Str → Option Int) (lines : List Str) (gap maxc : Int)
       (cues : List CCue) (out : List (Str × Str × Str)),
      compressParse pureSec (compressSkipHeader lines) = .ok cues →
      (∀ c ∈ cues, c.start_ms ≤ c.end_ms) →
      cmd_compress pureSec lines gap maxc = .ok out →
      ∀ p ∈ out, ∃ sv ev : Int, sv ≤ ev ∧
        parse_ts_to_ms pureSec p.1 = some sv ∧
        parse_ts_to_ms pureSec p.2.1 = some ev) := by
  constructor
  · intro pureSec line g1 g2 g3 tok s0 e0 out act hm hft hp1 hp2 hfix
    unfold fixLine at hfix
    rw [hm] at hfix
    simp only at hfix
    rw [hft] at hfix
    simp only at hfix
    rw [hp1, hp2] at hfix
    simp only [Except.ok.injEq, Prod.mk.injEq] at hfix
    obtain ⟨hout, -⟩ := hfix
    have hmin : (if e0 < s0 then e0 else s0) = min s0 e0 := by
      rcases le_total s0 e0 with h | h
      · rw [if_neg (by omega), min_eq_left h]
      · rcases eq_or_lt_of_le h with h | h
        · subst h
          simp
        · rw [if_pos h, min_eq_right (le_of_lt h)]
    have hmax : (if e0 < s0 then s0 else e0) = max s0 e0 := by
      rcases le_total s0 e0 with h | h
      · rw [if_neg (by omega), max_eq_right h]
      · rcases eq_or_lt_of_le h with h | h
        · subst h
          simp
        · rw [if_pos h, max_eq_left (le_of_lt h)]
    rw [hmin, hmax] at hout
    have hg3 := tsLineMatch_g3_space hm
    constructor
    · rw [← hout]
      exact tsLineMatch_rendered (min s0 e0) (max s0 e0) hg3
    · refine ⟨((min s0 e0).toNat : Int), ((max s0 e0).toNat : Int), ?_, ?_, ?_⟩
      · have := Int.toNat_le_toNat (min_le_max (a := s0) (b := e0))
        omega
      · exact parse_ms_to_vtt pureSec (min s0 e0)
      · exact parse_ms_to_vtt pureSec (max s0 e0)
  · intro pureSec lines gap maxc cues out hparse hord hcc p hp
    unfold cmd_compress at hcc
    rw [hparse] at hcc
    simp only [Except.bind] at hcc
    by_cases hne : cues.isEmpty
    · rw [if_pos hne] at hcc
      cases hcc
    · rw [if_neg hne] at hcc
      simp only [Except.ok.injEq] at hcc
      have hperm : (sortCues cues).Perm cues := sortLe_perm cueKeyLe cues
      cases hs : sortCues cues with
      | nil =>
        rw [hs] at hperm
        have hlen := hperm.length_eq
        simp only [List.length_nil] at hlen
        rw [List.isEmpty_iff] at hne
        exact absurd (List.length_eq_zero.mp hlen.symm) hne
      | cons c rest =>
        have hcm : compressMerged gap maxc (sortCues cues)
            = mergeLoop gap maxc (c.start_ms, c.end_ms, c.start_ts, c.end_ts, c.txt) rest := by
          rw [hs]
          rfl
        rw [hcm] at hcc
        have hmemc : ∀ d ∈ sortCues cues, d.start_ms ≤ d.end_ms ∧ tsOkC d := by
          intro d hd
          have hd2 : d ∈ cues := hperm.mem_iff.mp hd
          exact ⟨hord d hd2, compressParse_tsOk hparse d hd2⟩
        obtain ⟨hc1, hc2⟩ := hmemc c (by rw [hs]; exact List.mem_cons_self c rest)
        have hrest : ∀ d ∈ rest, d.start_ms ≤ d.end_ms ∧ tsOkC d :=
          fun d hd => hmemc d (by rw [hs]; exact List.mem_cons_of_mem c hd)
        rw [← hcc] at hp
        rw [hc2.1, hc2.2] at hp
        obtain ⟨sv, ev, hle, hps⟩ :=
          mergeLoop_end_ge gap maxc rest c.start_ms c.end_ms c.txt hc1 hrest p hp
        exact ⟨sv, ev, hle, (hps pureSec).1, (hps pureSec).2⟩

/-- Witness for C2 at the spec's swap example and at a two-cue
compressor run. -/
theorem C2_end_ge_start_witness :
    (tsLineMatch "05:00.000 --> 02:00.000 align:start\n".toList
      = some ("05:00.000".toList, "02:00.000".toList, " align:start".toList) ∧
     tsLineMatch "00:02:00.000 --> 00:05:00.000 align:start\n".toList
      = some (ms_to_vtt (min (300000 : Int) 120000),
              ms_to_vtt (max (300000 : Int) 120000), rstrip " align:start".toList) ∧
     ∃ sv ev : Int, sv ≤ ev ∧
       parse_ts_to_ms pureSecStub (ms_to_vtt (min (300000 : Int) 120000)) = some sv ∧
       parse_ts_to_ms pureSecStub (ms_to_vtt (max (300000 : Int) 120000)) = some ev) ∧
    (∀ p ∈ [("00:00:01.000".toList, "00:00:03.000".toList, "Hello world.".toList)],
      ∃ sv ev : Int, sv ≤ ev ∧
        parse_ts_to_ms pureSecStub (p.1 : Str) = some sv ∧
        parse_ts_to_ms pureSecStub p.2.1 = some ev) := by
  have hm : tsLineMatch "05:00.000 --> 02:00.000 align:start\n".toList
      = some ("05:00.000".toList, "02:00.000".toList, " align:start".toList) := by decide
  have hfix : fixLine pureSecStub "05:00.000 --> 02:00.000 align:start\n".toList
      = .ok ("00:02:00.000 --> 00:05:00.000 align:start\n".toList,
             some FixAction.swap_start_end) := by decide
  have h1 := C2_end_ge_start.1 pureSecStub
    "05:00.000 --> 02:00.000 align:start\n".toList
    "05:00.000".toList "02:00.000".toList " align:start".toList
    "02:00.000".toList 300000 120000
    "00:02:00.000 --> 00:05:00.000 align:start\n".toList
    (some FixAction.swap_start_end) hm
    (by decide) (by decide) (by decide) hfix
  have hparse : compressParse pureSecStub (compressSkipHeader
      (["WEBVTT", "", "00:00:01.000 --> 00:00:02.000", "Hello", "",
        "00:00:02.100 --> 00:00:03.000", "world."].map String.toList))
      = .ok [CCue.mk 1000 2000 "00:00:01.000".toList "00:00:02.000".toList "Hello".toList,
             CCue.mk 2100 3000 "00:00:02.100".toList "00:00:03.000".toList "world.".toList] := by
    decide
  have hcc : cmd_compress pureSecStub
      (["WEBVTT", "", "00:00:01.000 --> 00:00:02.000", "Hello", "",
        "00:00:02.100 --> 00:00:03.000", "world."].map String.toList) 500 130
      = .ok [("00:00:01.000".toList, "00:00:03.000".toList, "Hello world.".toList)] := by
    decide
  have h2 := C2_end_ge_start.2 pureSecStub _ 500 130 _ _ hparse (by decide) hcc
  exact ⟨⟨hm, h1.1, h1.2⟩, h2⟩

/-- Counterexample to C2 as stated: a compressor pass over an input
whose single cue has `end < start` emits that cue unrepaired, so the
output document contains a cue with `end_ms < start_ms`. -/
theorem C2_end_ge_start_counterexample :
    cmd_compress pureSecStub
      (["WEBVTT", "", "00:00:05.000 --> 00:00:01.000", "hi"].map String.toList) 500 130
      = .ok [("00:00:05.000".toList, "00:00:01.000".toList, "hi".toList)] ∧
    parse_ts_to_ms pureSecStub "00:00:05.000".toList = some 5000 ∧
    parse_ts_to_ms pureSecStub "00:00:01.000".toList = some 1000 ∧
    ¬ ((5000 : Int) ≤ 1000) := by
  refine ⟨by decide, by decide, by decide, by decide⟩

/-! ## C3: the splitter without a signature line -/

/-- C3 (amended).  When the first non-blank line does not start with
the signature (case-insensitively, BOM-stripped), the Document
Splitter consumes no signature line — but it does not return an empty
header with the whole document as body: it discards the leading blank
lines, consumes the first non-blank run as header metadata together
with the following blank separator run, and returns only the
remainder (which starts with a non-blank line, or is empty) as the
body, unchanged. -/
theorem C3_splitter_no_signature (lines : List Str) (l : Str)
    (hhead : (lines.dropWhile isBlank).head? = some l)
    (hsig : startsWithWEBVTT l = false) :
    ∃ pre meta seps body,
      lines = pre ++ meta ++ seps ++ body ∧
      (∀ x ∈ pre, isBlank x = true) ∧
      meta ≠ [] ∧ (∀ x ∈ meta, isBlank x = false) ∧
      (∀ x ∈ seps, isBlank x = true) ∧
      (∀ b, body.head? = some b → isBlank b = false) ∧
      split_header_and_body lines = (meta ++ seps, body) := by
  obtain ⟨t, hdrop⟩ : ∃ t, lines.dropWhile isBlank = l :: t := by
    cases hd : lines.dropWhile isBlank with
    | nil => rw [hd] at hhead; cases hhead
    | cons a t =>
      rw [hd] at hhead
      simp only [List.head?_cons, Option.some_inj] at hhead
      exact ⟨t, by rw [hhead]⟩
  · have hlblank : isBlank l = false := by
      apply dropWhile_head_false (p := isBlank) (l := lines)
      rw [hdrop]
      rfl
    refine ⟨lines.takeWhile isBlank,
      (l :: t).takeWhile (fun x => ! isBlank x),
      ((l :: t).dropWhile (fun x => ! isBlank x)).takeWhile isBlank,
      ((l :: t).dropWhile (fun x => ! isBlank x)).dropWhile isBlank,
      ?_, ?_, ?_, ?_, ?_, ?_, ?_⟩
    · conv_lhs => rw [← List.takeWhile_append_dropWhile (p := isBlank) (l := lines)]
      rw [hdrop]
      rw [← List.takeWhile_append_dropWhile (p := fun x => ! isBlank x) (l := l :: t)]
      conv_lhs => rw [← List.takeWhile_append_dropWhile (p := isBlank)
        (l := (l :: t).dropWhile (fun x => ! isBlank x))]
      simp
    · intro x hx
      exact List.mem_takeWhile_imp hx
    · rw [List.takeWhile_cons]
      simp [hlblank]
    · intro x hx
      have := List.mem_takeWhile_imp hx
      simpa using this
    · intro x hx
      exact List.mem_takeWhile_imp hx
    · intro b hb
      exact dropWhile_head_false hb
    · unfold split_header_and_body
      rw [hdrop]
      simp only [hsig, Bool.false_eq_true, if_false]
      rfl

/-- Counterexample to C3 as stated: a signature-less document does NOT
get an empty header — the first paragraph is consumed as header
metadata. -/
theorem C3_splitter_counterexample :
    ((["hello\n", "\n", "world\n"].map String.toList).dropWhile isBlank).head?
      = some "hello\n".toList ∧
    startsWithWEBVTT "hello\n".toList = false ∧
    split_header_and_body (["hello\n", "\n", "world\n"].map String.toList)
      = (["hello\n".toList, "\n".toList], ["world\n".toList]) ∧
    ¬ (split_header_and_body (["hello\n", "\n", "world\n"].map String.toList)
      = ([], ["hello\n", "\n", "world\n"].map String.toList)) := by
  refine ⟨by decide, by decide, by decide, by decide⟩

/-- Witness for C3 (amended) at the same concrete document. -/
theorem C3_splitter_no_signature_witness :
    ∃ pre meta seps body,
      (["hello\n", "\n", "world\n"].map String.toList) = pre ++ meta ++ seps ++ body ∧
      (∀ x ∈ pre, isBlank x = true) ∧
      meta ≠ [] ∧ (∀ x ∈ meta, isBlank x = false) ∧
      (∀ x ∈ seps, isBlank x = true) ∧
      (∀ b, body.head? = some b → isBlank b = false) ∧
      split_header_and_body (["hello\n", "\n", "world\n"].map String.toList)
        = (meta ++ seps, body) :=
  C3_splitter_no_signature (["hello\n", "\n", "world\n"].map String.toList)
    "hello\n".toList (by decide) (by decide)

/-! ## C8 and C10: the chunker -/

theorem appendAt_nil_get (i : Nat) (c : Cue) (j : Nat) :
    (appendAt [] i c).getD j [] = if j = i then [c] else [] := by
  induction i generalizing j with
  | zero =>
    cases j with
    | zero => rfl
    | succ k => rfl
  | succ n ih =>
    cases j with
    | zero => rfl
    | succ k =>
      show (appendAt [] n c).getD k [] = _
      rw [ih k]
      simp only [Nat.succ_inj]

theorem appendAt_get (bs : List (List Cue)) (i : Nat) (c : Cue) (j : Nat) :
    (appendAt bs i c).getD j [] =
      if j = i then bs.getD i [] ++ [c] else bs.getD j [] := by
  induction bs generalizing i j with
  | nil =>
    rw [appendAt_nil_get]
    cases hj : decide (j = i) with
    | false =>
      have := of_decide_eq_false hj
      rw [if_neg this, if_neg this]
      rfl
    | true =>
      have := of_decide_eq_true hj
      rw [if_pos this, if_pos this]
      rfl
  | cons b bs ih =>
    cases i with
    | zero =>
      cases j with
      | zero => rfl
      | succ k =>
        show bs.getD k [] = if k + 1 = 0 then _ else (b :: bs).getD (k + 1) []
        rw [if_neg (by omega)]
        rfl
    | succ n =>
      cases j with
      | zero =>
        show b = if 0 = n + 1 then _ else (b :: bs).getD 0 []
        rw [if_neg (by omega)]
        rfl
      | succ k =>
        show (appendAt bs n c).getD k [] = _
        rw [ih n k]
        have hiff : (k = n) = (k + 1 = n + 1) := by
          apply propext
          omega
        cases hd : decide (k = n) with
        | false =>
          have h := of_decide_eq_false hd
          rw [if_neg h, if_neg (by omega)]
          rfl
        | true =>
          have h := of_decide_eq_true hd
          rw [if_pos h, if_pos (by omega)]
          rfl

/-- Bucket `j` of the grouping loop is exactly the subsequence of cues
whose chunk index is `j`, in document order. -/
theorem bucketsOf_getD (base chunk : Int) (cues : List Cue) (j : Nat) :
    (bucketsOf base chunk cues).getD j []
      = cues.filter (fun c => (chunk_index base chunk c.start_ms).toNat = j) := by
  suffices h : ∀ (cs : List Cue) (bs : List (List Cue)) (j : Nat),
      (cs.foldl (fun acc c =>
        appendAt acc (chunk_index base chunk c.start_ms).toNat c) bs).getD j []
      = bs.getD j [] ++ cs.filter (fun c => (chunk_index base chunk c.start_ms).toNat = j) by
    have := h cues [] j
    unfold bucketsOf
    rw [this]
    simp
  intro cs
  induction cs with
  | nil =>
    intro bs j
    simp
  | cons c rest ih =>
    intro bs j
    simp only [List.foldl_cons]
    rw [ih, appendAt_get, List.filter_cons]
    by_cases h : (chunk_index base chunk c.start_ms).toNat = j
    · rw [if_pos h.symm, if_pos (by simp [h]), h]
      simp
    · rw [if_neg (fun he => h he.symm), if_neg (by simp [h])]

theorem enumFrom_getD (l : List (List Cue)) :
    ∀ (n : Nat) (p : Nat × List Cue), p ∈ List.enumFrom n l →
      n ≤ p.1 ∧ l.getD (p.1 - n) [] = p.2 := by
  induction l with
  | nil => intro n p hp; simp [List.enumFrom] at hp
  | cons b bs ih =>
    intro n p hp
    rw [List.enumFrom] at hp
    rcases List.mem_cons.mp hp with hp | hp
    · subst hp
      exact ⟨le_refl n, by simp⟩
    · obtain ⟨h1, h2⟩ := ih (n + 1) p hp
      refine ⟨by omega, ?_⟩
      have : p.1 - n = (p.1 - (n + 1)) + 1 := by omega
      rw [this]
      exact h2

theorem enumFrom_pairwise (l : List (List Cue)) :
    ∀ n : Nat, (List.enumFrom n l).Pairwise (fun p q => p.1 < q.1) := by
  induction l with
  | nil => intro n; simp [List.enumFrom]
  | cons b bs ih =>
    intro n
    rw [List.enumFrom]
    refine List.Pairwise.cons ?_ (ih (n + 1))
    intro q hq
    have := (enumFrom_getD bs (n + 1) q hq).1
    show n < q.1
    omega

/-- C8.  Chunker bucketing: (a) bucket `j` holds exactly the cues with
chunk index `max 0 ((start - base) fdiv D) = j`, in order; (b) the
aligned base is the largest multiple of `D` not exceeding the minimum
cue start (and the other mode is absolute zero by definition); (c)
emitted parts are the nonempty buckets, in strictly increasing index
order; (d) the spec's example — starts 0, 599999, 600000, 1199999
with D = 600000, zero-aligned — yields exactly two documents grouping
the first two and the last two cues. -/
theorem C8_chunker_bucketing :
    (∀ (base chunk : Int) (cues : List Cue) (j : Nat),
      (bucketsOf base chunk cues).getD j []
        = cues.filter (fun c => (chunk_index base chunk c.start_ms).toNat = j)) ∧
    (∀ (chunk : Int) (c : Cue) (cs : List Cue), 0 < chunk →
      splitBase false chunk c cs ≤ minStart c cs ∧
      minStart c cs < splitBase false chunk c cs + chunk ∧
      chunk ∣ splitBase false chunk c cs) ∧
    (∀ buckets : List (List Cue),
      (∀ p ∈ emittedParts buckets, p.2 ≠ [] ∧ buckets.getD (p.1 - 1) [] = p.2) ∧
      (emittedParts buckets).Pairwise (fun p q => p.1 < q.1)) ∧
    (emittedParts (bucketsOf 0 600000
        [Cue.mk 0 1000 [] [], Cue.mk 599999 600999 [] [],
         Cue.mk 600000 601000 [] [], Cue.mk 1199999 1200999 [] []])
      = [(1, [Cue.mk 0 1000 [] [], Cue.mk 599999 600999 [] []]),
         (2, [Cue.mk 600000 601000 [] [], Cue.mk 1199999 1200999 [] []])]) := by
  refine ⟨bucketsOf_getD, ?_, ?_, by decide⟩
  · intro chunk c cs hchunk
    unfold splitBase
    rw [if_neg (by simp)]
    set m := minStart c cs with hm
    rw [Int.fdiv_eq_ediv _ (le_of_lt hchunk)]
    have hadd := Int.emod_add_ediv m chunk
    have h0 : 0 ≤ m % chunk := Int.emod_nonneg m (ne_of_gt hchunk)
    have h1 : m % chunk < chunk := Int.emod_lt_of_pos m hchunk
    refine ⟨by nlinarith, by nlinarith, dvd_mul_left chunk (m / chunk)⟩
  · intro buckets
    constructor
    · intro p hp
      unfold emittedParts at hp
      have hmem := List.mem_of_mem_filter hp
      have hpred := List.of_mem_filter hp
      obtain ⟨h1, h2⟩ := enumFrom_getD buckets 1 p hmem
      refine ⟨?_, h2⟩
      intro he
      rw [he] at hpred
      simp at hpred
    · exact List.Pairwise.filter _ (enumFrom_pairwise buckets 1)

/-- Witness for C8's conditional parts at `D = 600000` and the
example cues. -/
theorem C8_chunker_bucketing_witness :
    ((bucketsOf 0 600000 [Cue.mk 0 1000 [] [], Cue.mk 1300000 1301000 [] []]).getD 2 []
      = [Cue.mk 1300000 1301000 [] []]) ∧
    (splitBase false 600000 (Cue.mk 1250000 1251000 [] []) [] ≤
        minStart (Cue.mk 1250000 1251000 [] []) [] ∧
      minStart (Cue.mk 1250000 1251000 [] []) [] <
        splitBase false 600000 (Cue.mk 1250000 1251000 [] []) [] + 600000 ∧
      (600000 : Int) ∣ splitBase false 600000 (Cue.mk 1250000 1251000 [] []) []) := by
  constructor
  · have h := C8_chunker_bucketing.1 0 600000
      [Cue.mk 0 1000 [] [], Cue.mk 1300000 1301000 [] []] 2
    rw [h]
    decide
  · exact C8_chunker_bucketing.2.1 600000 (Cue.mk 1250000 1251000 [] []) [] (by decide)

/-- C10.  Each emitted chunk is numbered by the 1-based position of
its time bucket (`stem_part{N}` with `N` = bucket index + 1), counting
empty buckets too; with cues at 0 ms and 1300000 ms and D = 600000 the
middle window is empty, so the files are `in_part1.vtt` and
`in_part3.vtt` — non-consecutive — and the last part number 3 differs
from the number of files written (2). -/
theorem C10_part_numbering :
    (∀ (buckets : List (List Cue)) (p : Nat × List Cue), p ∈ emittedParts buckets →
      1 ≤ p.1 ∧ buckets.getD (p.1 - 1) [] = p.2 ∧ p.2 ≠ []) ∧
    (emittedFileNames "in".toList
        (bucketsOf 0 600000 [Cue.mk 0 1000 [] [], Cue.mk 1300000 1301000 [] []])
      = ["in_part1.vtt".toList, "in_part3.vtt".toList]) ∧
    ((emittedParts (bucketsOf 0 600000
        [Cue.mk 0 1000 [] [], Cue.mk 1300000 1301000 [] []])).map Prod.fst = [1, 3]) ∧
    ((3 : Nat) ≠ (emittedParts (bucketsOf 0 600000
        [Cue.mk 0 1000 [] [], Cue.mk 1300000 1301000 [] []])).length) := by
  refine ⟨?_, by decide, by decide, by decide⟩
  intro buckets p hp
  unfold emittedParts at hp
  have hmem := List.mem_of_mem_filter hp
  have hpred := List.of_mem_filter hp
  obtain ⟨h1, h2⟩ := enumFrom_getD buckets 1 p hmem
  refine ⟨h1, h2, ?_⟩
  intro he
  rw [he] at hpred
  simp at hpred

/-- Witness for C10's universal part at a concrete bucket list. -/
theorem C10_part_numbering_witness :
    (1 : Nat) ≤ 3 ∧
    (bucketsOf 0 600000 [Cue.mk 0 1000 [] [], Cue.mk 1300000 1301000 [] []]).getD 2 []
      = [Cue.mk 1300000 1301000 [] []] ∧
    [Cue.mk 1300000 1301000 [] []] ≠ ([] : List Cue) := by
  have hp : ((3 : Nat), [Cue.mk 1300000 1301000 [] []]) ∈
      emittedParts (bucketsOf 0 600000
        [Cue.mk 0 1000 [] [], Cue.mk 1300000 1301000 [] []]) := by decide
  exact C10_part_numbering.1 _ _ hp

/-! ## C9: the merger's chronological ordering -/

theorem char_eq_of_toNat_eq {a b : Char} (h : a.toNat = b.toNat) : a = b := by
  have h2 := congrArg Char.ofNat h
  rwa [Char.ofNat_toNat, Char.ofNat_toNat] at h2

theorem strLt_cons_iff {a b : Char} {as bs : Str} :
    strLt (a :: as) (b :: bs) = true ↔
      a.toNat < b.toNat ∨ (a.toNat = b.toNat ∧ strLt as bs = true) := by
  show (if a.toNat < b.toNat then true
        else if b.toNat < a.toNat then false else strLt as bs) = true ↔ _
  by_cases h1 : a.toNat < b.toNat
  · rw [if_pos h1]
    simp [h1]
  · rw [if_neg h1]
    by_cases h2 : b.toNat < a.toNat
    · rw [if_pos h2]
      constructor
      · intro h; cases h
      · intro h
        rcases h with h | ⟨h, -⟩
        · omega
        · omega
    · rw [if_neg h2]
      have heq : a.toNat = b.toNat := by omega
      constructor
      · intro h
        exact Or.inr ⟨heq, h⟩
      · intro h
        rcases h with h | ⟨-, h⟩
        · omega
        · exact h

theorem strLt_total (s t : Str) : strLt s t = true ∨ strLt t s = true ∨ s = t := by
  induction s generalizing t with
  | nil =>
    cases t with
    | nil => exact Or.inr (Or.inr rfl)
    | cons b bs => exact Or.inl rfl
  | cons a as ih =>
    cases t with
    | nil => exact Or.inr (Or.inl rfl)
    | cons b bs =>
      by_cases hab : a.toNat < b.toNat
      · exact Or.inl (strLt_cons_iff.mpr (Or.inl hab))
      · by_cases hba : b.toNat < a.toNat
        · exact Or.inr (Or.inl (strLt_cons_iff.mpr (Or.inl hba)))
        · have heq : a.toNat = b.toNat := by omega
          rcases ih bs with h | h | h
          · exact Or.inl (strLt_cons_iff.mpr (Or.inr ⟨heq, h⟩))
          · exact Or.inr (Or.inl (strLt_cons_iff.mpr (Or.inr ⟨heq.symm, h⟩)))
          · exact Or.inr (Or.inr (by rw [char_eq_of_toNat_eq heq, h]))

theorem strLt_trans : ∀ {a b c : Str}, strLt a b = true → strLt b c = true →
    strLt a c = true := by
  intro a
  induction a with
  | nil =>
    intro b c h1 h2
    cases b with
    | nil => cases h1
    | cons x xs =>
      cases c with
      | nil => cases h2
      | cons y ys => rfl
  | cons a as ih =>
    intro b c h1 h2
    cases b with
    | nil => cases h1
    | cons x xs =>
      cases c with
      | nil => cases h2
      | cons y ys =>
        rcases strLt_cons_iff.mp h1 with h1 | ⟨h1, h1r⟩ <;>
          rcases strLt_cons_iff.mp h2 with h2 | ⟨h2, h2r⟩
        · exact strLt_cons_iff.mpr (Or.inl (by omega))
        · exact strLt_cons_iff.mpr (Or.inl (by omega))
        · exact strLt_cons_iff.mpr (Or.inl (by omega))
        · exact strLt_cons_iff.mpr (Or.inr ⟨by omega, ih h1r h2r⟩)

/-- The lexicographic reading of `mergeKeyLe`. -/
theorem mergeKeyLe_iff {k1 k2 : Int × Int × Str} :
    mergeKeyLe k1 k2 = true ↔
      k1.1 < k2.1 ∨ (k1.1 = k2.1 ∧ (k1.2.1 < k2.2.1 ∨ (k1.2.1 = k2.2.1 ∧
        (strLt k1.2.2 k2.2.2 = true ∨ k1.2.2 = k2.2.2)))) := by
  unfold mergeKeyLe
  by_cases h1 : k1.1 < k2.1
  · rw [if_pos h1]
    simp [h1]
  · rw [if_neg h1]
    by_cases h2 : k2.1 < k1.1
    · rw [if_pos h2]
      constructor
      · intro h; cases h
      · intro h
        rcases h with h | ⟨h, -⟩ <;> omega
    · rw [if_neg h2]
      have he1 : k1.1 = k2.1 := by omega
      by_cases h3 : k1.2.1 < k2.2.1
      · rw [if_pos h3]
        simp [he1, h3]
      · rw [if_neg h3]
        by_cases h4 : k2.2.1 < k1.2.1
        · rw [if_pos h4]
          constructor
          · intro h; cases h
          · intro h
            rcases h with h | ⟨-, h | ⟨h, -⟩⟩ <;> omega
        · rw [if_neg h4]
          have he2 : k1.2.1 = k2.2.1 := by omega
          simp only [Bool.or_eq_true, decide_eq_true_eq]
          constructor
          · intro h
            exact Or.inr ⟨he1, Or.inr ⟨he2, h⟩⟩
          · intro h
            rcases h with h | ⟨-, h | ⟨-, h⟩⟩
            · omega
            · omega
            · exact h

theorem mergeKeyLe_total (k1 k2 : Int × Int × Str) :
    mergeKeyLe k1 k2 = true ∨ mergeKeyLe k2 k1 = true := by
  rcases lt_trichotomy k1.1 k2.1 with h | h | h
  · exact Or.inl (mergeKeyLe_iff.mpr (Or.inl h))
  · rcases lt_trichotomy k1.2.1 k2.2.1 with h2 | h2 | h2
    · exact Or.inl (mergeKeyLe_iff.mpr (Or.inr ⟨h, Or.inl h2⟩))
    · rcases strLt_total k1.2.2 k2.2.2 with h3 | h3 | h3
      · exact Or.inl (mergeKeyLe_iff.mpr (Or.inr ⟨h, Or.inr ⟨h2, Or.inl h3⟩⟩))
      · exact Or.inr (mergeKeyLe_iff.mpr (Or.inr ⟨h.symm, Or.inr ⟨h2.symm, Or.inl h3⟩⟩))
      · exact Or.inl (mergeKeyLe_iff.mpr (Or.inr ⟨h, Or.inr ⟨h2, Or.inr h3⟩⟩))
    · exact Or.inr (mergeKeyLe_iff.mpr (Or.inr ⟨h.symm, Or.inl h2⟩))
  · exact Or.inr (mergeKeyLe_iff.mpr (Or.inl h))

theorem mergeKeyLe_trans {k1 k2 k3 : Int × Int × Str}
    (h1 : mergeKeyLe k1 k2 = true) (h2 : mergeKeyLe k2 k3 = true) :
    mergeKeyLe k1 k3 = true := by
  rcases mergeKeyLe_iff.mp h1 with h1 | ⟨h1a, h1b⟩ <;>
    rcases mergeKeyLe_iff.mp h2 with h2 | ⟨h2a, h2b⟩
  · exact mergeKeyLe_iff.mpr (Or.inl (by omega))
  · exact mergeKeyLe_iff.mpr (Or.inl (by omega))
  · exact mergeKeyLe_iff.mpr (Or.inl (by omega))
  · refine mergeKeyLe_iff.mpr (Or.inr ⟨by omega, ?_⟩)
    rcases h1b with h1b | ⟨h1c, h1d⟩ <;> rcases h2b with h2b | ⟨h2c, h2d⟩
    · exact Or.inl (by omega)
    · exact Or.inl (by omega)
    · exact Or.inl (by omega)
    · refine Or.inr ⟨by omega, ?_⟩
      rcases h1d with h1d | h1d <;> rcases h2d with h2d | h2d
      · exact Or.inl (strLt_trans h1d h2d)
      · exact Or.inl (h2d ▸ h1d)
      · exact Or.inl (h1d ▸ h2d)
      · exact Or.inr (h1d.trans h2d)

/-- Inserting into a sorted list keeps it sorted, for any total
transitive boolean order. -/
theorem pairwise_insertLe {le : α → α → Bool}
    (htot : ∀ a b, le a b = true ∨ le b a = true)
    (htr : ∀ {a b c}, le a b = true → le b c = true → le a c = true)
    (a : α) : ∀ {l : List α}, l.Pairwise (fun x y => le x y = true) →
    (insertLe le a l).Pairwise (fun x y => le x y = true) := by
  intro l
  induction l with
  | nil =>
    intro _
    exact List.pairwise_singleton _ a
  | cons b bs ih =>
    intro hp
    rcases List.pairwise_cons.mp hp with ⟨hb, hbs⟩
    unfold insertLe
    by_cases hab : le a b = true
    · rw [if_pos hab]
      refine List.pairwise_cons.mpr ⟨?_, hp⟩
      intro x hx
      rcases List.mem_cons.mp hx with hx | hx
      · exact hx ▸ hab
      · exact htr hab (hb x hx)
    · rw [if_neg hab]
      refine List.pairwise_cons.mpr ⟨?_, ih hbs⟩
      intro x hx
      have hx' : x ∈ a :: bs := (insertLe_perm le a bs).mem_iff.mp hx
      rcases List.mem_cons.mp hx' with hx' | hx'
      · rw [hx']
        rcases htot a b with h | h
        · exact absurd h hab
        · exact h
      · exact hb x hx'

/-- The insertion sort produces a sorted list, for any total transitive
boolean order. -/
theorem sortLe_pairwise {le : α → α → Bool}
    (htot : ∀ a b, le a b = true ∨ le b a = true)
    (htr : ∀ {a b c}, le a b = true → le b c = true → le a c = true)
    (l : List α) : (sortLe le l).Pairwise (fun x y => le x y = true) := by
  induction l with
  | nil => exact List.Pairwise.nil
  | cons a as ih =>
    unfold sortLe
    exact pairwise_insertLe htot htr a ih

/-- When no body line contributes a decodable cue start, the first-cue
scan returns the `10^12` sentinel. -/
theorem firstCueScan_sentinel (pureSec : Str → Option Int) :
    ∀ body : List Str, body.all (noCueLine pureSec) = true →
    firstCueScan pureSec body = 10 ^ 12 := by
  intro body
  induction body with
  | nil =>
    intro _
    rfl
  | cons line rest ih =>
    intro h
    rw [List.all_cons, Bool.and_eq_true] at h
    rcases h with ⟨hline, hrest⟩
    have hstep : firstCueScan pureSec (line :: rest)
        = match tsLineMatch line with
          | none => firstCueScan pureSec rest
          | some (g1, _, _) =>
            match parse_ts_to_ms pureSec (strip g1) with
            | some v => v
            | none => firstCueScan pureSec rest := rfl
    rw [hstep]
    cases htm : tsLineMatch line with
    | none => exact ih hrest
    | some g =>
      obtain ⟨g1, g2, g3⟩ := g
      have hparse : parse_ts_to_ms pureSec (strip g1) = none := by
        have : noCueLine pureSec line
            = (parse_ts_to_ms pureSec (strip g1)).isNone := by
          unfold noCueLine
          rw [htm]
        rw [this] at hline
        exact Option.isNone_iff_eq_none.mp hline
      show (match parse_ts_to_ms pureSec (strip g1) with
            | some v => v
            | none => firstCueScan pureSec rest) = (10 ^ 12 : Int)
      rw [hparse]
      exact ih hrest

/-- C9 (corrected).  The Chronological Merger stably sorts its input
files ascending by the lexicographic key tuple (decoded start time of
the file's first parsed cue — the fixed sentinel `10^12` ms when no cue
start decodes —, the part number extracted from the filename, the
lowercased filename): the output is a permutation of the input and is
pairwise ordered by the key, and three files whose first cues start at
20000, 5000 and 15000 ms are ordered second, third, first from every
enumeration order.  The sentinel is a fixed constant rather than a
value larger than every real timestamp, so a zero-cue file is placed
after exactly those files whose first cue start is below `10^12` ms. -/
theorem C9_merge_order :
    (∀ pureSec (files : List MFile), (mergeOrder pureSec files).Perm files) ∧
    (∀ pureSec (files : List MFile), (mergeOrder pureSec files).Pairwise
      (fun a b => mergeKeyLe (mergeKey pureSec a) (mergeKey pureSec b) = true)) ∧
    (∀ pureSec (lines : List Str),
      (split_header_and_body lines).2.all (noCueLine pureSec) = true →
      first_cue_start_ms pureSec lines = 10 ^ 12) ∧
    (∀ l ∈ [[mergeA, mergeB, mergeC], [mergeA, mergeC, mergeB],
            [mergeB, mergeA, mergeC], [mergeB, mergeC, mergeA],
            [mergeC, mergeA, mergeB], [mergeC, mergeB, mergeA]],
      mergeOrder pureSecStub l = [mergeB, mergeC, mergeA]) := by
  refine ⟨?_, ?_, ?_, ?_⟩
  · intro pureSec files
    exact sortLe_perm _ files
  · intro pureSec files
    exact sortLe_pairwise
      (fun a b => mergeKeyLe_total (mergeKey pureSec a) (mergeKey pureSec b))
      (fun h1 h2 => mergeKeyLe_trans h1 h2) files
  · intro pureSec lines h
    exact firstCueScan_sentinel pureSec _ h
  · decide

/-- Witness for C9 at concrete inputs: the 20000/5000/15000 ms example
from one enumeration order, and the sentinel on a cue-less file. -/
theorem C9_merge_order_witness :
    (mergeOrder pureSecStub [mergeA, mergeB, mergeC]).Perm
      [mergeA, mergeB, mergeC] ∧
    first_cue_start_ms pureSecStub mergeX.lines = 10 ^ 12 ∧
    mergeOrder pureSecStub [mergeC, mergeA, mergeB] = [mergeB, mergeC, mergeA] :=
  ⟨C9_merge_order.1 pureSecStub [mergeA, mergeB, mergeC],
   C9_merge_order.2.2.1 pureSecStub mergeX.lines (by decide),
   C9_merge_order.2.2.2 [mergeC, mergeA, mergeB] (by decide)⟩

/-- Counterexample to C9 as stated: the zero-cue sentinel `10^12` ms is
not larger than every real timestamp, so a file with zero parsable cues
is not always placed after a file that has a parsable cue — a first cue
at 280000 hours decodes to 1.008 * 10^12 ms and sorts after the
cue-less file. -/
theorem C9_merge_order_counterexample :
    first_cue_start_ms pureSecStub mergeX.lines = 10 ^ 12 ∧
    first_cue_start_ms pureSecStub mergeY.lines = 1008 * 10 ^ 9 ∧
    (10 ^ 12 : Int) < 1008 * 10 ^ 9 ∧
    mergeOrder pureSecStub [mergeY, mergeX] = [mergeX, mergeY] := by
  refine ⟨by decide, by decide, by decide, by decide⟩

/-! ## C7: the compressor's fusion fold refines the specification -/

theorem cueKeyLe_iff {a b : CCue} : cueKeyLe a b = true ↔
    a.start_ms < b.start_ms ∨ (a.start_ms = b.start_ms ∧ a.end_ms ≤ b.end_ms) := by
  unfold cueKeyLe
  by_cases h1 : a.start_ms < b.start_ms
  · rw [if_pos h1]
    simp [h1]
  · rw [if_neg h1]
    by_cases h2 : b.start_ms < a.start_ms
    · rw [if_pos h2]
      constructor
      · intro h; cases h
      · intro h
        rcases h with h | ⟨h, -⟩ <;> omega
    · rw [if_neg h2]
      simp only [decide_eq_true_eq]
      constructor
      · intro h
        exact Or.inr ⟨by omega, h⟩
      · intro h
        rcases h with h | ⟨-, h⟩
        · omega
        · exact h

theorem cueKeyLe_total (a b : CCue) : cueKeyLe a b = true ∨ cueKeyLe b a = true := by
  rcases lt_trichotomy a.start_ms b.start_ms with h | h | h
  · exact Or.inl (cueKeyLe_iff.mpr (Or.inl h))
  · rcases le_total a.end_ms b.end_ms with h2 | h2
    · exact Or.inl (cueKeyLe_iff.mpr (Or.inr ⟨h, h2⟩))
    · exact Or.inr (cueKeyLe_iff.mpr (Or.inr ⟨h.symm, h2⟩))
  · exact Or.inr (cueKeyLe_iff.mpr (Or.inl h))

theorem cueKeyLe_trans {a b c : CCue}
    (h1 : cueKeyLe a b = true) (h2 : cueKeyLe b c = true) : cueKeyLe a c = true := by
  rcases cueKeyLe_iff.mp h1 with h1 | ⟨h1a, h1b⟩ <;>
    rcases cueKeyLe_iff.mp h2 with h2 | ⟨h2a, h2b⟩
  · exact cueKeyLe_iff.mpr (Or.inl (by omega))
  · exact cueKeyLe_iff.mpr (Or.inl (by omega))
  · exact cueKeyLe_iff.mpr (Or.inl (by omega))
  · exact cueKeyLe_iff.mpr (Or.inr ⟨by omega, by omega⟩)

/-- The source's fusion condition (a decidable conjunction of Props)
agrees with the specification's Bool-valued `specShouldFuse`. -/
theorem specShouldFuse_iff {gap_ms max_chars : Int} {a : SpecAcc} {c : CCue} :
    specShouldFuse gap_ms max_chars a c = true ↔
      (c.start_ms - a.e_ms ≤ gap_ms ∧ ¬ ends_sentence a.text = true ∧
       (a.text.length : Int) + 1 + (c.txt.length : Int) ≤ max_chars) := by
  have hterm : specTerminal a.text = ends_sentence a.text := rfl
  unfold specShouldFuse
  rw [hterm]
  simp [Bool.and_eq_true, and_assoc]

/-- The fold of `cmd_compress`, started from a state whose rendered end
timestamp is canonical, computes exactly the specification's machine. -/
theorem mergeLoop_spec (gap_ms max_chars : Int) :
    ∀ (rest : List CCue) (cs ce : Int) (cst buf : Str),
    (∀ c ∈ rest, c.end_ts = ms_to_vtt c.end_ms) →
    mergeLoop gap_ms max_chars (cs, ce, cst, ms_to_vtt ce, buf) rest
      = specStep gap_ms max_chars ⟨cs, ce, cst, buf⟩ rest := by
  intro rest
  induction rest with
  | nil =>
    intro cs ce cst buf _
    rfl
  | cons c rest ih =>
    intro cs ce cst buf h
    have hc : c.end_ts = ms_to_vtt c.end_ms := h c (List.mem_cons_self _ _)
    have hrest : ∀ x ∈ rest, x.end_ts = ms_to_vtt x.end_ms :=
      fun x hx => h x (List.mem_cons_of_mem _ hx)
    have hL : mergeLoop gap_ms max_chars (cs, ce, cst, ms_to_vtt ce, buf) (c :: rest)
        = if c.start_ms - ce ≤ gap_ms ∧ ¬ ends_sentence buf ∧
             (buf.length : Int) + 1 + (c.txt.length : Int) ≤ max_chars then
            mergeLoop gap_ms max_chars
              (cs, max ce c.end_ms, cst, ms_to_vtt (max ce c.end_ms),
               clean_text (buf ++ ' ' :: c.txt)) rest
          else
            (cst, ms_to_vtt ce, buf) ::
              mergeLoop gap_ms max_chars
                (c.start_ms, c.end_ms, c.start_ts, c.end_ts, c.txt) rest := rfl
    have hR : specStep gap_ms max_chars ⟨cs, ce, cst, buf⟩ (c :: rest)
        = if specShouldFuse gap_ms max_chars ⟨cs, ce, cst, buf⟩ c then
            specStep gap_ms max_chars (specFuse ⟨cs, ce, cst, buf⟩ c) rest
          else
            specFlush ⟨cs, ce, cst, buf⟩ ::
              specStep gap_ms max_chars ⟨c.start_ms, c.end_ms, c.start_ts, c.txt⟩ rest := rfl
    rw [hL, hR]
    by_cases hcond : c.start_ms - ce ≤ gap_ms ∧ ¬ ends_sentence buf = true ∧
        (buf.length : Int) + 1 + (c.txt.length : Int) ≤ max_chars
    · rw [if_pos hcond, if_pos (specShouldFuse_iff.mpr hcond)]
      exact ih cs (max ce c.end_ms) cst (clean_text (buf ++ ' ' :: c.txt)) hrest
    · rw [if_neg hcond, if_neg (fun hb => hcond (specShouldFuse_iff.mp hb))]
      rw [hc]
      rw [ih c.start_ms c.end_ms c.start_ts c.txt hrest]
      rfl

/-- `compressMerged` equals `specCompress` on any cue list whose end
timestamps are canonical renderings. -/
theorem compressMerged_spec (gap_ms max_chars : Int) (cues : List CCue)
    (h : ∀ c ∈ cues, c.end_ts = ms_to_vtt c.end_ms) :
    compressMerged gap_ms max_chars cues = specCompress gap_ms max_chars cues := by
  cases cues with
  | nil => rfl
  | cons c cs =>
    have hc : c.end_ts = ms_to_vtt c.end_ms := h c (List.mem_cons_self _ _)
    show mergeLoop gap_ms max_chars
        (c.start_ms, c.end_ms, c.start_ts, c.end_ts, c.txt) cs
      = specStep gap_ms max_chars ⟨c.start_ms, c.end_ms, c.start_ts, c.txt⟩ cs
    rw [hc]
    exact mergeLoop_spec gap_ms max_chars cs c.start_ms c.end_ms c.start_ts c.txt
      (fun x hx => h x (List.mem_cons_of_mem _ hx))

/-- C7.  The compressor pre-sorts its cues ascending by
`(start, end)` (the sort is a permutation, pairwise ordered by that
key), and every successful `cmd_compress` run emits exactly the output
of the specification's fusion machine `specCompress` on the sorted
cues: fuse exactly under the three stated conditions (gap within
threshold, accumulator text not already sentence-terminal — empty
counts as terminal —, prospective fused length within `max_chars`),
extend the end to the max and re-clean the space-joined texts on
fusion, flush otherwise and at the end.  On the specification's
example, "Hello" and "world." 100 ms apart fuse into "Hello world.",
and a third cue 0 ms after the now-terminal accumulator starts a new
cue. -/
theorem C7_compressor_fusion :
    (∀ cues : List CCue, (sortCues cues).Perm cues ∧
      (sortCues cues).Pairwise (fun a b => cueKeyLe a b = true)) ∧
    (∀ (pureSec : Str → Option Int) (lines : List Str) (gap_ms max_chars : Int)
       (merged : List (Str × Str × Str)),
      cmd_compress pureSec lines gap_ms max_chars = .ok merged →
      ∃ cues, compressParse pureSec (compressSkipHeader lines) = .ok cues ∧
        cues ≠ [] ∧ merged = specCompress gap_ms max_chars (sortCues cues)) ∧
    cmd_compress pureSecStub compressDoc 500 130 =
      .ok [("00:00:00.000".toList, "00:00:02.000".toList, "Hello world.".toList),
           ("00:00:02.000".toList, "00:00:03.000".toList, "again".toList)] ∧
    ends_sentence "Hello".toList = false ∧
    ends_sentence "Hello world.".toList = true := by
  refine ⟨?_, ?_, by decide, by decide, by decide⟩
  · intro cues
    exact ⟨sortLe_perm cueKeyLe cues,
      sortLe_pairwise cueKeyLe_total (fun h1 h2 => cueKeyLe_trans h1 h2) cues⟩
  · intro pureSec lines gap_ms max_chars merged hcc
    unfold cmd_compress at hcc
    cases hparse : compressParse pureSec (compressSkipHeader lines) with
    | error e =>
      rw [hparse] at hcc
      simp only [Except.bind] at hcc
      cases hcc
    | ok cues =>
      rw [hparse] at hcc
      simp only [Except.bind] at hcc
      by_cases hne : cues.isEmpty
      · rw [if_pos hne] at hcc
        cases hcc
      · rw [if_neg hne] at hcc
        simp only [Except.ok.injEq] at hcc
        refine ⟨cues, rfl, fun hnil => hne (by rw [hnil]; rfl), ?_⟩
        rw [← hcc]
        refine compressMerged_spec gap_ms max_chars (sortCues cues) ?_
        intro c hc
        have hc2 : c ∈ cues := (sortLe_perm cueKeyLe cues).mem_iff.mp hc
        exact (compressParse_tsOk hparse c hc2).2

/-- Witness for C7 at the specification's three-cue example. -/
theorem C7_compressor_fusion_witness :
    ∃ cues, compressParse pureSecStub (compressSkipHeader compressDoc) = .ok cues ∧
      cues ≠ [] ∧
      [("00:00:00.000".toList, "00:00:02.000".toList, "Hello world.".toList),
       ("00:00:02.000".toList, "00:00:03.000".toList, "again".toList)]
        = specCompress 500 130 (sortCues cues) :=
  C7_compressor_fusion.2.1 pureSecStub compressDoc 500 130
    [("00:00:00.000".toList, "00:00:02.000".toList, "Hello world.".toList),
     ("00:00:02.000".toList, "00:00:03.000".toList, "again".toList)]
    (by decide)

/-! ## C1: local recovery from decode failures -/

/-- C1 (corrected).  A timestamp line whose shape matches but whose
start or end field fails to decode is recovered locally by the
Timeline Fixer (the line passes through unchanged with a
`SKIP_UNPARSEABLE` log entry), by the checker (a `PARSE_FAIL` issue is
recorded and the scan continues), by the Cue Parser (the cue is
skipped and parsing continues), and by the Merger's first-cue scan
(the scan continues) — but NOT by the Cue Compressor, which decodes
timestamps outside any handler, so a single undecodable field aborts
the whole compression. -/
theorem C1_local_recovery :
    (∀ (pureSec : Str → Option Int) (line g1 g2 g3 tok : Str),
      tsLineMatch line = some (g1, g2, g3) →
      firstToken (strip g2) = some tok →
      (parse_ts_to_ms pureSec (strip g1) = none ∨
       parse_ts_to_ms pureSec tok = none) →
      fixLine pureSec line = .ok (line, some FixAction.skip_unparseable)) ∧
    (∀ (pureSec : Str → Option Int) (idx : Nat) (line g1 g2 g3 tok : Str)
       (rest : List Str),
      tsLineMatch line = some (g1, g2, g3) →
      firstToken (strip g2) = some tok →
      (parse_ts_to_ms pureSec (strip g1) = none ∨
       parse_ts_to_ms pureSec tok = none) →
      checkScan pureSec idx (line :: rest)
        = (checkScan pureSec (idx + 1) rest).map
            (fun p => (Issue.mk idx .parse_fail (rstripNl line) :: p.1, p.2))) ∧
    (∀ (pureSec : Str → Option Int) (line g1 g2 g3 tok : Str) (rest : List Str),
      tsLineMatch line = some (g1, g2, g3) →
      firstToken (strip g2) = some tok →
      (parse_ts_to_ms pureSec (strip g1) = none ∨
       parse_ts_to_ms pureSec tok = none) →
      iter_cues pureSec (line :: rest) = iter_cues pureSec rest) ∧
    (∀ (pureSec : Str → Option Int) (line g1 g2 g3 : Str) (rest : List Str),
      tsLineMatch line = some (g1, g2, g3) →
      parse_ts_to_ms pureSec (strip g1) = none →
      firstCueScan pureSec (line :: rest) = firstCueScan pureSec rest) ∧
    (∀ gap_ms max_chars : Int,
      cmd_compress pureSecStub
        (["WEBVTT\n", "\n", "a --> b\n", "x\n", "\n"].map String.toList)
        gap_ms max_chars = .error ()) := by
  refine ⟨?_, ?_, ?_, ?_, ?_⟩
  · intro pureSec line g1 g2 g3 tok hm htok hfail
    unfold fixLine
    rw [hm]
    simp only
    rw [htok]
    simp only
    rcases hfail with hf | hf
    · cases h2 : parse_ts_to_ms pureSec tok <;> rw [hf]
    · cases h1 : parse_ts_to_ms pureSec (strip g1) <;> rw [hf]
  · intro pureSec idx line g1 g2 g3 tok rest hm htok hfail
    have hstep : checkScan pureSec idx (line :: rest)
        = match tsLineMatch line with
          | none => checkScan pureSec (idx + 1) rest
          | some (g1, g2, _) =>
            match firstToken (strip g2) with
            | none => .error ()
            | some end_raw =>
              match parse_ts_to_ms pureSec (strip g1),
                    parse_ts_to_ms pureSec end_raw with
              | some s, some e =>
                (checkScan pureSec (idx + 1) rest).map fun p =>
                  ((if e < s then [Issue.mk idx .end_before_start (rstripNl line)]
                    else []) ++ p.1,
                   (idx, s, e, rstripNl line) :: p.2)
              | _, _ =>
                (checkScan pureSec (idx + 1) rest).map fun p =>
                  (Issue.mk idx .parse_fail (rstripNl line) :: p.1, p.2) := rfl
    rw [hstep, hm]
    show (match firstToken (strip g2) with
          | none => .error ()
          | some end_raw =>
            match parse_ts_to_ms pureSec (strip g1),
                  parse_ts_to_ms pureSec end_raw with
            | some s, some e =>
              (checkScan pureSec (idx + 1) rest).map fun p =>
                ((if e < s then [Issue.mk idx .end_before_start (rstripNl line)]
                  else []) ++ p.1,
                 (idx, s, e, rstripNl line) :: p.2)
            | _, _ =>
              (checkScan pureSec (idx + 1) rest).map fun p =>
                (Issue.mk idx .parse_fail (rstripNl line) :: p.1, p.2))
        = (checkScan pureSec (idx + 1) rest).map
            (fun p => (Issue.mk idx .parse_fail (rstripNl line) :: p.1, p.2))
    rw [htok]
    show (match parse_ts_to_ms pureSec (strip g1), parse_ts_to_ms pureSec tok with
          | some s, some e =>
            (checkScan pureSec (idx + 1) rest).map fun p =>
              ((if e < s then [Issue.mk idx .end_before_start (rstripNl line)]
                else []) ++ p.1,
               (idx, s, e, rstripNl line) :: p.2)
          | _, _ =>
            (checkScan pureSec (idx + 1) rest).map fun p =>
              (Issue.mk idx .parse_fail (rstripNl line) :: p.1, p.2))
        = (checkScan pureSec (idx + 1) rest).map
            (fun p => (Issue.mk idx .parse_fail (rstripNl line) :: p.1, p.2))
    rcases hfail with hf | hf
    · cases h2 : parse_ts_to_ms pureSec tok <;> rw [hf]
    · cases h1 : parse_ts_to_ms pureSec (strip g1) <;> rw [hf]
  · intro pureSec line g1 g2 g3 tok rest hm htok hfail
    have hstep : iter_cues pureSec (line :: rest)
        = match tsLineMatch line with
          | none => iterCuesF pureSec (rest.length + 1) rest
          | some (g1, g2, _) =>
            match firstToken (strip g2) with
            | none => .error ()
            | some end_raw =>
              match parse_ts_to_ms pureSec (strip g1),
                    parse_ts_to_ms pureSec end_raw with
              | some s, some e =>
                (iterCuesF pureSec (rest.length + 1) (dropBlock rest)).map
                  (Cue.mk s e ((rest.takeWhile (fun l => ! isBlank l)).map rstripNl)
                    (rstripNl line) :: ·)
              | _, _ => iterCuesF pureSec (rest.length + 1) rest := rfl
    rw [hstep, hm]
    show (match firstToken (strip g2) with
          | none => .error ()
          | some end_raw =>
            match parse_ts_to_ms pureSec (strip g1),
                  parse_ts_to_ms pureSec end_raw with
            | some s, some e =>
              (iterCuesF pureSec (rest.length + 1) (dropBlock rest)).map
                (Cue.mk s e ((rest.takeWhile (fun l => ! isBlank l)).map rstripNl)
                  (rstripNl line) :: ·)
            | _, _ => iterCuesF pureSec (rest.length + 1) rest)
        = iter_cues pureSec rest
    rw [htok]
    show (match parse_ts_to_ms pureSec (strip g1), parse_ts_to_ms pureSec tok with
          | some s, some e =>
            (iterCuesF pureSec (rest.length + 1) (dropBlock rest)).map
              (Cue.mk s e ((rest.takeWhile (fun l => ! isBlank l)).map rstripNl)
                (rstripNl line) :: ·)
          | _, _ => iterCuesF pureSec (rest.length + 1) rest)
        = iter_cues pureSec rest
    rcases hfail with hf | hf
    · cases h2 : parse_ts_to_ms pureSec tok <;> rw [hf] <;> rfl
    · cases h1 : parse_ts_to_ms pureSec (strip g1) <;> rw [hf] <;> rfl
  · intro pureSec line g1 g2 g3 rest hm hf
    have hstep : firstCueScan pureSec (line :: rest)
        = match tsLineMatch line with
          | none => firstCueScan pureSec rest
          | some (g1, _, _) =>
            match parse_ts_to_ms pureSec (strip g1) with
            | some v => v
            | none => firstCueScan pureSec rest := rfl
    rw [hstep, hm]
    show (match parse_ts_to_ms pureSec (strip g1) with
          | some v => v
          | none => firstCueScan pureSec rest) = firstCueScan pureSec rest
    rw [hf]
  · intro gap_ms max_chars
    have hparse : compressParse pureSecStub
        (compressSkipHeader (["WEBVTT\n", "\n", "a --> b\n", "x\n", "\n"].map
          String.toList)) = .error () := by decide
    unfold cmd_compress
    rw [hparse]
    rfl

/-- Witness for C1 at the undecodable line `a --> b`. -/
theorem C1_local_recovery_witness :
    fixLine pureSecStub "a --> b\n".toList
      = .ok ("a --> b\n".toList, some FixAction.skip_unparseable) ∧
    checkScan pureSecStub 1 ["a --> b\n".toList]
      = (checkScan pureSecStub 2 []).map
          (fun p => (Issue.mk 1 .parse_fail (rstripNl "a --> b\n".toList) :: p.1, p.2)) ∧
    iter_cues pureSecStub ["a --> b\n".toList, "x\n".toList]
      = iter_cues pureSecStub ["x\n".toList] ∧
    firstCueScan pureSecStub ["a --> b\n".toList] = firstCueScan pureSecStub [] ∧
    cmd_compress pureSecStub
      (["WEBVTT\n", "\n", "a --> b\n", "x\n", "\n"].map String.toList) 500 130
      = .error () :=
  ⟨C1_local_recovery.1 pureSecStub "a --> b\n".toList "a".toList "b".toList []
      "b".toList (by decide) (by decide) (Or.inl (by decide)),
   C1_local_recovery.2.1 pureSecStub 1 "a --> b\n".toList "a".toList "b".toList []
      "b".toList [] (by decide) (by decide) (Or.inl (by decide)),
   C1_local_recovery.2.2.1 pureSecStub "a --> b\n".toList "a".toList "b".toList []
      "b".toList ["x\n".toList] (by decide) (by decide) (Or.inl (by decide)),
   C1_local_recovery.2.2.2.1 pureSecStub "a --> b\n".toList "a".toList "b".toList []
      [] (by decide) (by decide),
   C1_local_recovery.2.2.2.2 500 130⟩

/-- Counterexample to C1 as stated: the Cue Compressor does abort the
whole document on a decode failure — its timestamp parsing sits outside
any handler. -/
theorem C1_local_recovery_counterexample :
    tsLineMatch "a --> b\n".toList = some ("a".toList, "b".toList, []) ∧
    parse_ts_to_ms pureSecStub (strip "a".toList) = none ∧
    cmd_compress pureSecStub
      (["WEBVTT\n", "\n", "a --> b\n", "x\n", "\n"].map String.toList) 500 130
      = .error () ∧
    iter_cues pureSecStub (["a --> b\n", "x\n", "\n"].map String.toList) = .ok [] := by
  refine ⟨by decide, by decide, by decide, by decide⟩

end VTT
